import Mathlib

/-!
Verification of the speedupdate engine against its specification.

Each definition below is a shallow embedding of a function of the Rust
sources (`src/lib/src/...`); definitions whose doc comment starts with
`Modelled from the spec:` stand for code that is not part of the sources
and are written from the specification text instead.  Theorems named
`cN_...` settle the corresponding claims.
-/

namespace Speedupdate

/-! ## Character-level string helpers

Rust's `str::contains(char)`, `str::replace(char, str)` and
`str::split(char)` are embedded over the character list of the string so
that every definition evaluates by kernel reduction. -/

/-- `s.contains(pat)` for a one-character pattern. -/
def containsChar (pat : Char) (s : String) : Bool :=
  s.data.contains pat

/-- `s.replace(pat, rep)` for a one-character pattern and a one-character
replacement: character-wise substitution. -/
def replaceChar (pat rep : Char) (s : String) : String :=
  ⟨s.data.map fun c => if c = pat then rep else c⟩

/-- Split a character list at every occurrence of `sep`; like Rust's
`str::split(sep)`, the empty string yields one empty component. -/
def splitCharList (sep : Char) (cs : List Char) : List (List Char) :=
  cs.foldr
    (fun c r =>
      if c = sep then [] :: r
      else
        match r with
        | [] => [[c]]
        | g :: gs => (c :: g) :: gs)
    [[]]

/-- `s.split(sep)` over strings. -/
def splitChar (sep : Char) (s : String) : List String :=
  (splitCharList sep s.data).map (fun l => ⟨l⟩)

/-! ## Metadata model (src/lib/src/metadata/mod.rs, v1.rs) -/

/-- `CleanPath` wraps the accepted string (metadata/mod.rs).  -/
structure CleanPath where
  path : String
deriving DecidableEq, Repr

namespace CleanPath

/-- Embedding of `CleanPath::new` (metadata/mod.rs 253-263): normalize `\`
to `/`, then require every `/`-separated component to differ from `.` and
`..` and the string to be non-empty (Rust checks the byte length, which is
zero exactly when the character list is empty). -/
def new (path0 : String) : Except String CleanPath :=
  let path := if containsChar '\\' path0 then replaceChar '\\' '/' path0 else path0
  let isClean := (splitChar '/' path).all (fun component => component != "." && component != "..")
  if isClean && path.length > 0 then .ok ⟨path⟩ else .error path

end CleanPath

/-- SHA-1 digests only ever get compared for equality; they are embedded as
opaque numbers. -/
structure Sha1Hash where
  hash : Nat
deriving DecidableEq, Repr

/-- The `Common` part of v1 operations (metadata/v1.rs). -/
structure OpCommon where
  path : String
  slice : Option String
  exe : Bool
  slice_handler : Option String
deriving DecidableEq, Repr

/-- `v1::Add` (metadata/v1.rs). -/
structure AddOp where
  common : OpCommon
  data_offset : Nat
  data_size : Nat
  data_sha1 : Sha1Hash
  data_compression : String
  final_offset : Nat
  final_size : Nat
  final_sha1 : Sha1Hash
deriving DecidableEq, Repr

/-- `v1::Patch` (metadata/v1.rs). -/
structure PatchOp where
  common : OpCommon
  data_offset : Nat
  data_size : Nat
  data_sha1 : Sha1Hash
  data_compression : String
  patch_type : String
  local_offset : Nat
  local_size : Nat
  local_sha1 : Sha1Hash
  final_offset : Nat
  final_size : Nat
  final_sha1 : Sha1Hash
deriving DecidableEq, Repr

/-- `v1::Check` (metadata/v1.rs). -/
structure CheckOp where
  common : OpCommon
  local_offset : Nat
  local_size : Nat
  local_sha1 : Sha1Hash
deriving DecidableEq, Repr

/-- `v1::Rm` (metadata/v1.rs). -/
structure RmOp where
  path : String
  slice : Option String
deriving DecidableEq, Repr

/-- `v1::Operation` (metadata/v1.rs). -/
inductive Operation where
  | add (op : AddOp)
  | patch (op : PatchOp)
  | check (op : CheckOp)
  | rm (op : RmOp)
  | mkdir (path : String)
  | rmdir (path : String)
deriving DecidableEq, Repr

namespace Operation

/-- `Operation::path` (metadata/mod.rs 587-596). -/
def path : Operation → String
  | .add op => op.common.path
  | .patch op => op.common.path
  | .check op => op.common.path
  | .rm op => op.path
  | .mkdir p => p
  | .rmdir p => p

/-- `Operation::slice` (metadata/mod.rs 598-606). -/
def slice : Operation → Option String
  | .add op => op.common.slice
  | .patch op => op.common.slice
  | .check op => op.common.slice
  | .rm op => op.slice
  | .mkdir _ => none
  | .rmdir _ => none

/-- `Operation::as_check_operation` (metadata/v1.rs 191-205). -/
def as_check_operation : Operation → Option Operation
  | .add op =>
      some (.check ⟨op.common, op.final_offset, op.final_size, op.final_sha1⟩)
  | .patch op =>
      some (.check ⟨op.common, op.final_offset, op.final_size, op.final_sha1⟩)
  | .check op => some (.check op)
  | .mkdir p => some (.mkdir p)
  | .rmdir _ => none
  | .rm _ => none

/-- `Operation::data_size` (metadata/mod.rs 555-561). -/
def data_size : Operation → Nat
  | .add op => op.data_size
  | .patch op => op.data_size
  | _ => 0

/-- `Operation::range().is_some()`: only `Add` and `Patch` carry bytes
(metadata/mod.rs 569-577). -/
def carriesData : Operation → Bool
  | .add _ => true
  | .patch _ => true
  | _ => false

end Operation

/-- `v1::Failure` (metadata/v1.rs 216-221). -/
inductive Failure where
  | fpath (path : String)
  | fslice (path : String) (slice : String)
deriving DecidableEq, Repr

namespace Failure

/-- `Failure::path` (metadata/v1.rs 233-237). -/
def path : Failure → String
  | .fpath p => p
  | .fslice p _ => p

/-- `Failure::slice` (metadata/v1.rs 239-244). -/
def slice : Failure → Option String
  | .fpath _ => none
  | .fslice _ s => some s

end Failure

/-- `UpdatePosition` (workspace/mod.rs 210-214); the derived `Ord` is the
lexicographic order on `(operation_idx, byte_idx)`. -/
structure UpdatePosition where
  operation_idx : Nat
  byte_idx : Nat
deriving DecidableEq, Repr

namespace UpdatePosition

/-- The derived lexicographic strict order of `UpdatePosition`. -/
def lt (a b : UpdatePosition) : Prop :=
  a.operation_idx < b.operation_idx ∨
    (a.operation_idx = b.operation_idx ∧ a.byte_idx < b.byte_idx)

/-- The derived lexicographic order of `UpdatePosition`. -/
def le (a b : UpdatePosition) : Prop :=
  lt a b ∨ a = b

instance (a b : UpdatePosition) : Decidable (lt a b) := by
  unfold lt; infer_instance

instance (a b : UpdatePosition) : Decidable (le a b) := by
  unfold le; infer_instance

/-- `UpdatePosition::new()`. -/
def new : UpdatePosition := ⟨0, 0⟩

end UpdatePosition

/-- `v1::StateUpdating` (metadata/v1.rs 258-273). -/
structure StateUpdating where
  from? : Option String
  to' : String
  available : UpdatePosition
  applied : UpdatePosition
  failures : List Failure
  previous_failures : List Failure
  check_only : Bool
deriving DecidableEq, Repr

/-- `v1::State` (metadata/v1.rs 208-214). -/
inductive WorkspaceState where
  | new
  | stable (version : String)
  | corrupted (version : String) (failures : List Failure)
  | updating (st : StateUpdating)
deriving DecidableEq, Repr

/-! ## Applier commit (src/lib/src/handlers/mod.rs) -/

/-- `io::CheckSha1Size` outcome: counted bytes and their digest. -/
structure CheckSha1Size where
  bytes : Nat
  sha1 : Sha1Hash
deriving DecidableEq, Repr

/-- A workspace file system: file path to contents (as a byte list). -/
def Fs : Type := String → Option (List Nat)

/-- `io::remove_file` (io.rs 164-169): removal that treats a missing file
as success. -/
def removeFile (p : String) (fs : Fs) : Fs :=
  fun q => if q = p then none else fs q

/-- The inputs `WriteApplier::commit` (handlers/mod.rs 159-177) inspects:
the four expectations, the two paths, and the decoder's flush result,
input-side checks and finish result. -/
structure WriteApplierState where
  data_size_expected : Nat
  data_sha1_expected : Sha1Hash
  final_size_expected : Nat
  final_sha1_expected : Sha1Hash
  final_path : String
  tmp_path : String
  flush_result : Except String Unit
  input_checks : CheckSha1Size
  finish_result : Except String CheckSha1Size

/-- Embedding of `WriteApplier::commit` (handlers/mod.rs 159-177):
flush, verify input sha1 and size against `data_sha1`/`data_size`, finish
the decoder, verify output sha1 and size against `final_sha1`/`final_size`,
and only then remove the destination file and rename the tmp file over it.
The file system is threaded through so the effect (or absence of effect)
on the destination is part of the result. -/
def writeApplierCommit (w : WriteApplierState) (fs : Fs) : Except String Unit × Fs :=
  match w.flush_result with
  | .error e => (.error e, fs)
  | .ok () =>
    if w.input_checks.sha1 ≠ w.data_sha1_expected then (.error "data sha1 mismatch", fs)
    else if w.input_checks.bytes ≠ w.data_size_expected then (.error "data size mismatch", fs)
    else
      match w.finish_result with
      | .error e => (.error e, fs)
      | .ok output_checks =>
        if output_checks.sha1 ≠ w.final_sha1_expected then (.error "final sha1 mismatch", fs)
        else if output_checks.bytes ≠ w.final_size_expected then (.error "final size mismatch", fs)
        else
          let fs1 := removeFile w.final_path fs
          match fs1 w.tmp_path with
          | none => (.error "rename: tmp file not found", fs1)
          | some c =>
            (.ok (),
             fun q => if q = w.final_path then some c
                      else if q = w.tmp_path then none
                      else fs1 q)

/-- All four verifications of the claim, plus the decoder finalization
steps they depend on. -/
def commitVerified (w : WriteApplierState) : Prop :=
  w.flush_result = .ok () ∧
  w.input_checks.sha1 = w.data_sha1_expected ∧
  w.input_checks.bytes = w.data_size_expected ∧
  ∃ oc, w.finish_result = .ok oc ∧
    oc.sha1 = w.final_sha1_expected ∧ oc.bytes = w.final_size_expected

/-! ## Check engine (src/lib/src/workspace/check.rs) -/

/-- `CheckError` (check.rs 21-28), restricted to the variants the embedded
fragment can produce. -/
inductive CheckError where
  | newWorkspace
  | localCheckError (msg : String)
deriving DecidableEq, Repr

/-- Embedding of the entry of `check` (check.rs 45-58): reject `New`
workspaces before `check.json` is read, then build the indexed list of
check operations from the read file. -/
def checkEntry (state : WorkspaceState) (readChecks : Except String (List Operation)) :
    Except CheckError (List (Nat × Operation)) :=
  if state = .new then .error .newWorkspace
  else
    match readChecks with
    | .error e => .error (.localCheckError e)
    | .ok checks =>
      .ok (checks.enum.filterMap fun p =>
        (p.2.as_check_operation).map fun o => (p.1, o))

/-- Embedding of the final state transition of a check run
(check.rs 97-110).  Returns the new state and whether `write_state` was
called. -/
def checkCommit (state : WorkspaceState) (failures : List Failure) :
    WorkspaceState × Bool :=
  match state with
  | .stable version =>
      if failures.isEmpty then (state, false)
      else (.corrupted version failures, true)
  | .updating st => (.updating { st with failures := failures }, true)
  | _ => (state, false)

/-- The check pipeline seen from the workspace state: the entry guard and
read (check.rs 45-58), the applier run abstracted into the failures it
records, then the final transition (check.rs 97-110).  The state is
written only through `checkCommit`, so an `error` result leaves the
persisted state untouched. -/
def checkRun (state : WorkspaceState) (readChecks : Except String (List Operation))
    (applyFailures : List (Nat × Operation) → List Failure) :
    Except CheckError (WorkspaceState × Bool) :=
  match checkEntry state readChecks with
  | .error e => .error e
  | .ok ops => .ok (checkCommit state (applyFailures ops))

/-! ## Package builder (src/lib/src/repository/packager.rs) -/

/-- The three-valued outcome of a Rust function that can also panic. -/
inductive RustResult (α : Type) where
  | panics
  | errs (msg : String)
  | ok (a : α)
deriving DecidableEq, Repr

/-- `CoderOptions` (codecs/mod.rs 212-236): a name plus the optional
`minratio`, `minsize` and `maxsize` entries of its option map. -/
structure CoderOptions where
  name : String
  ratioMinOpt : Option Nat := none
  sizeMinOpt : Option Nat := none
  sizeMaxOpt : Option Nat := none
deriving DecidableEq, Repr

/-- `u64::MAX`. -/
def u64Max : Nat := 2 ^ 64 - 1

namespace CoderOptions

/-- `CoderOptions::min_ratio` — default 100 (codecs/mod.rs 225-227). -/
def min_ratio (o : CoderOptions) : Nat := o.ratioMinOpt.getD 100

/-- `CoderOptions::min_size` — default 0 (codecs/mod.rs 230-232). -/
def min_size (o : CoderOptions) : Nat := o.sizeMinOpt.getD 0

/-- `CoderOptions::max_size` — default `u64::MAX` (codecs/mod.rs 235-237). -/
def max_size (o : CoderOptions) : Nat := o.sizeMaxOpt.getD u64Max

end CoderOptions

/-- What running one encoder over the source slice yields: the encoded
byte count (`data_size`) and the count of source bytes read
(`final_size`).  For a slice of size `n` every encoder reads exactly the
slice, so `final_size = n`; the embedding keeps the field so the source's
own `assert_eq` remains visible. -/
structure EncodeResult where
  data_size : Nat
  final_size : Nat
deriving DecidableEq, Repr

/-- A kept candidate: its coder options and its measured result. -/
def EncCandidate : Type := CoderOptions × EncodeResult

/-- Embedding of the candidate loop of `best_encoder`
(packager.rs 690-752), one iteration per configured coder:
skip coders whose size gates exclude the slice, run the coder, compute
`ratio = data_size * 100 / final_size` (u64 division: a zero `final_size`
panics), check `final_size` against the slice size, drop candidates whose
ratio is below `min_ratio`, and keep the smallest `data_size` (ties keep
the earlier candidate). -/
def bestEncoderGo (encode : CoderOptions → EncodeResult) (sliceSize : Nat) :
    List CoderOptions → Option EncCandidate → RustResult EncCandidate
  | [], none => .errs "no compressor"
  | [], some best => .ok best
  | o :: rest, best =>
    if sliceSize > o.max_size ∨ sliceSize < o.min_size then
      bestEncoderGo encode sliceSize rest best
    else
      let e := encode o
      if e.final_size = 0 then .panics
      else
        let ratio := e.data_size * 100 / e.final_size
        if e.final_size ≠ sliceSize then .errs "src file size mismatch"
        else if ratio < o.min_ratio then bestEncoderGo encode sliceSize rest best
        else
          match best with
          | some b =>
            if e.data_size ≥ b.2.data_size then bestEncoderGo encode sliceSize rest (some b)
            else bestEncoderGo encode sliceSize rest (some (o, e))
          | none => bestEncoderGo encode sliceSize rest (some (o, e))

/-- `best_encoder` (packager.rs 684-760). -/
def best_encoder (encode : CoderOptions → EncodeResult) (sliceSize : Nat)
    (opts : List CoderOptions) : RustResult EncCandidate :=
  bestEncoderGo encode sliceSize opts none

/-- `BuildOptions::default()` compressors (packager.rs 461): a single
`raw` coder with no option entries. -/
def defaultCompressors : List CoderOptions := [{ name := "raw" }]

/-- The fields of an `Encoded` candidate that `patch_file` reads when it
emits the operation (packager.rs 675-681): the coder name, the encoded
blob's size and hash, and the input's size and hash. -/
structure EncodedMeta where
  name : String
  data_size : Nat
  data_sha1 : Sha1Hash
  final_size : Nat
  final_sha1 : Sha1Hash
deriving DecidableEq, Repr

/-- Embedding of the operation construction at the end of `patch_file`
(packager.rs 962-991): when the best patcher is `raw` the operation falls
back to `Add`, with `data_*` taken from the best compressor run over the
patch output but `data_compression` taken from the best **patcher**;
otherwise a `Patch` operation is emitted. -/
def patchFileOperation (common : OpCommon) (pre_size : Nat) (pre_sha1 : Sha1Hash)
    (best_patcher best_compressor : EncodedMeta) : Operation :=
  if best_patcher.name = "raw" then
    .add { common := common
           data_offset := 0
           data_size := best_compressor.data_size
           data_sha1 := best_compressor.data_sha1
           data_compression := best_patcher.name
           final_offset := 0
           final_size := best_patcher.final_size
           final_sha1 := best_patcher.final_sha1 }
  else
    .patch { common := common
             data_offset := 0
             data_size := best_compressor.data_size
             data_sha1 := best_compressor.data_sha1
             data_compression := best_compressor.name
             patch_type := best_patcher.name
             local_offset := 0
             local_size := pre_size
             local_sha1 := pre_sha1
             final_offset := 0
             final_size := best_patcher.final_size
             final_sha1 := best_patcher.final_sha1 }

/-- The scratch file `patch_file` hands to the packaging phase is always
the best **compressor**'s output
(`BuiltOperation::with_data(best_compressor.path, op)`, packager.rs 994);
the compressor that actually produced the stored blob is therefore named
by the best compressor. -/
def patchFileBlobProducer (_best_patcher best_compressor : EncodedMeta) : String :=
  best_compressor.name

/-! ## HTTPS repository link (src/lib/src/link/https.rs) -/

/-- Embedding of the `Range` header value built in `HttpsRepository::package`
(link/https.rs 72): `format!("bytes={}-{}", range.start, range.end)` for the
half-open request range `[rstart, rend)`. -/
def httpsRangeHeader (rstart rend : Nat) : String :=
  "bytes=" ++ toString rstart ++ "-" ++ toString rend

/-- Modelled from the spec: the header the spec asks for on the half-open
range `[rstart, rend)`, namely `bytes=<start>-<end-1>`. -/
def specRangeHeaderHalfOpen (rstart rend : Nat) : String :=
  "bytes=" ++ toString rstart ++ "-" ++ toString (rend - 1)

/-- Modelled from the spec: the generic `bytes=<first>-<last>` header where
`last` is the inclusive last-byte position. -/
def specRangeHeaderInclusive (first last : Nat) : String :=
  "bytes=" ++ toString first ++ "-" ++ toString last

end Speedupdate

/-! ## C9 -/

/-- C9 (code_bug evidence): `CleanPath::new` accepts the absolute path
`"/etc/passwd"`: the string is returned unchanged, and it begins with the
separator `/`, contradicting the claim (and the code's own doc comment)
that every accepted `CleanPath` is a relative path. -/
theorem c9_cleanpath_accepts_absolute_path :
    Speedupdate.CleanPath.new "/etc/passwd" = Except.ok ⟨"/etc/passwd"⟩ ∧
    "/etc/passwd".data.head? = some '/' := by
  constructor
  · rfl
  · rfl

/-! ## C5 -/

/-- C5 counterexample: for the half-open range `[0, 10)` the HTTPS link
sends `bytes=0-10`, not the `bytes=0-9` the claim states. -/
theorem c5_range_header_counterexample :
    Speedupdate.httpsRangeHeader 0 10 = "bytes=0-10" ∧
    Speedupdate.specRangeHeaderHalfOpen 0 10 = "bytes=0-9" ∧
    Speedupdate.httpsRangeHeader 0 10 ≠ Speedupdate.specRangeHeaderHalfOpen 0 10 := by
  refine ⟨rfl, rfl, ?_⟩
  decide

/-- C5 amended: for every data fetch of the half-open byte range
`[rstart, rend)`, the HTTPS repository link sends the request header
`Range: bytes=<rstart>-<rend>`, i.e. the inclusive last-byte position it
names is `rend` itself, one past the last requested byte. -/
theorem c5_range_header_sends_end_inclusive (rstart rend : Nat) :
    Speedupdate.httpsRangeHeader rstart rend =
      Speedupdate.specRangeHeaderInclusive rstart rend := rfl

/-- C5 witness. -/
theorem c5_range_header_sends_end_inclusive_witness :
    Speedupdate.httpsRangeHeader 3 7 = Speedupdate.specRangeHeaderInclusive 3 7 :=
  c5_range_header_sends_end_inclusive 3 7

/-! ## C2 -/

/-- C2: for every `Add` or `Patch` operation, `WriteApplier::commit` first
verifies all four conditions (input size = `data_size`, input SHA-1 =
`data_sha1`, output size = `final_size`, output SHA-1 = `final_sha1`) and
only then removes the original destination file and renames the tmp file
over it; if any verification fails it returns an error before the
destination is touched, so on failure the whole file system (in particular
the destination file's prior contents) is unchanged. -/
theorem c2_commit_checks_before_destination
    (w : Speedupdate.WriteApplierState) (fs : Speedupdate.Fs) :
    (¬ Speedupdate.commitVerified w →
      ∃ e, Speedupdate.writeApplierCommit w fs = (Except.error e, fs)) ∧
    (Speedupdate.commitVerified w → w.tmp_path ≠ w.final_path →
      ∀ c, fs w.tmp_path = some c →
        (Speedupdate.writeApplierCommit w fs).1 = Except.ok () ∧
        (Speedupdate.writeApplierCommit w fs).2 w.final_path = some c ∧
        (Speedupdate.writeApplierCommit w fs).2 w.tmp_path = none ∧
        (∀ q, q ≠ w.final_path → q ≠ w.tmp_path →
          (Speedupdate.writeApplierCommit w fs).2 q = fs q)) := by
  constructor
  · intro hnv
    unfold Speedupdate.writeApplierCommit
    cases hf : w.flush_result with
    | error e => exact ⟨e, rfl⟩
    | ok u =>
      cases u
      by_cases h1 : w.input_checks.sha1 = w.data_sha1_expected
      · by_cases h2 : w.input_checks.bytes = w.data_size_expected
        · cases hfin : w.finish_result with
          | error e => simp [h1, h2]
          | ok oc =>
            by_cases h3 : oc.sha1 = w.final_sha1_expected
            · by_cases h4 : oc.bytes = w.final_size_expected
              · exact absurd ⟨hf, h1, h2, oc, hfin, h3, h4⟩ hnv
              · simp [h1, h2, h3, h4]
            · simp [h1, h2, h3]
        · simp [h1, h2]
      · simp [h1]
  · rintro ⟨hf, h1, h2, oc, hfin, h3, h4⟩ hne c hc
    have hfs1 : Speedupdate.removeFile w.final_path fs w.tmp_path = some c := by
      unfold Speedupdate.removeFile
      rw [if_neg hne, hc]
    have hres : Speedupdate.writeApplierCommit w fs =
        (.ok (), fun q => if q = w.final_path then some c
                          else if q = w.tmp_path then none
                          else Speedupdate.removeFile w.final_path fs q) := by
      unfold Speedupdate.writeApplierCommit
      rw [hf, hfin]
      simp only [h1, h2, h3, h4, ne_eq, not_true_eq_false, if_false, ite_false, hfs1]
    rw [hres]
    refine ⟨rfl, ?_, ?_, ?_⟩
    · simp
    · simp [hne, Ne.symm hne]
    · intro q hq1 hq2
      simp [hq1, hq2, Speedupdate.removeFile]

/-- C2 witness: a concrete commit whose four verifications pass moves the
tmp contents over the destination, and the same commit with a corrupted
input hash is rejected with the file system unchanged. -/
theorem c2_commit_checks_before_destination_witness :
    (Speedupdate.writeApplierCommit
        { data_size_expected := 3, data_sha1_expected := ⟨7⟩
          final_size_expected := 5, final_sha1_expected := ⟨8⟩
          final_path := "f", tmp_path := "t"
          flush_result := .ok ()
          input_checks := ⟨3, ⟨7⟩⟩
          finish_result := .ok ⟨5, ⟨8⟩⟩ }
        (fun q => if q = "t" then some [1, 2] else none)).2 "f" = some [1, 2] := by
  have h := (c2_commit_checks_before_destination
      { data_size_expected := 3, data_sha1_expected := ⟨7⟩
        final_size_expected := 5, final_sha1_expected := ⟨8⟩
        final_path := "f", tmp_path := "t"
        flush_result := .ok ()
        input_checks := ⟨3, ⟨7⟩⟩
        finish_result := .ok ⟨5, ⟨8⟩⟩ }
      (fun q => if q = "t" then some [1, 2] else none)).2
  exact (h ⟨rfl, rfl, rfl, ⟨5, ⟨8⟩⟩, rfl, rfl, rfl⟩ (by decide) [1, 2] rfl).2.1

/-! ## C10 -/

/-- C10: on a `New` workspace the check pipeline fails immediately with
`CheckError::NewWorkspace`: the result does not depend on the contents (or
readability) of `check.json`, and no state transition is produced, so the
persisted workspace state is untouched. -/
theorem c10_check_rejects_new_workspace
    (readChecks : Except String (List Speedupdate.Operation))
    (applyFailures : List (Nat × Speedupdate.Operation) → List Speedupdate.Failure) :
    Speedupdate.checkRun .new readChecks applyFailures =
      .error .newWorkspace := rfl

/-! ## C6 -/

/-- A mid-update state that already carries a recorded failure for
path `a`. -/
def c6StateBefore : Speedupdate.StateUpdating :=
  { from? := none, to' := "v2"
    available := Speedupdate.UpdatePosition.new
    applied := Speedupdate.UpdatePosition.new
    failures := [.fpath "a"]
    previous_failures := []
    check_only := false }

/-- C6 counterexample: completing a check run in an `Updating` state whose
`failures` already holds `Failure::Path("a")`, with the run recording only
`Failure::Slice("b", "s")`, *replaces* the stored failures: the prior
failure for `a` is gone, so the recorded failures were not merged into the
existing ones. -/
theorem c6_check_commit_replaces_counterexample :
    Speedupdate.checkCommit (.updating c6StateBefore) [.fslice "b" "s"] =
      (.updating { c6StateBefore with failures := [.fslice "b" "s"] }, true) ∧
    Speedupdate.Failure.fpath "a" ∈ c6StateBefore.failures ∧
    Speedupdate.Failure.fpath "a" ∉
      ({ c6StateBefore with failures := [.fslice "b" "s"]} :
        Speedupdate.StateUpdating).failures := by
  refine ⟨rfl, by decide, by decide⟩

/-- C6 amended: when a check run completes, a `Stable{version}` state with
at least one recorded failure becomes `Corrupted{version, failures}`; an
`Updating` state has its stored failures *replaced* by the recorded ones
(and is written); every other state is left unchanged and not written. -/
theorem c6_check_commit_transition
    (state : Speedupdate.WorkspaceState) (failures : List Speedupdate.Failure) :
    (∀ v, state = .stable v → failures ≠ [] →
        Speedupdate.checkCommit state failures = (.corrupted v failures, true)) ∧
    (∀ st, state = .updating st →
        Speedupdate.checkCommit state failures =
          (.updating { st with failures := failures }, true)) ∧
    ((∀ v, state ≠ .stable v) → (∀ st, state ≠ .updating st) →
        Speedupdate.checkCommit state failures = (state, false)) ∧
    (∀ v, state = .stable v → failures = [] →
        Speedupdate.checkCommit state failures = (state, false)) := by
  refine ⟨?_, ?_, ?_, ?_⟩
  · rintro v rfl hne
    simp only [Speedupdate.checkCommit]
    rw [if_neg (by simpa [List.isEmpty_iff] using hne)]
  · rintro st rfl
    rfl
  · intro hs hu
    cases state with
    | new => rfl
    | stable v => exact absurd rfl (hs v)
    | corrupted v f => rfl
    | updating st => exact absurd rfl (hu st)
  · rintro v rfl rfl
    rfl

/-- C6 witness: a stable workspace with one recorded failure transitions
to `Corrupted`. -/
theorem c6_check_commit_transition_witness :
    Speedupdate.checkCommit (.stable "v1") [.fpath "a"] =
      (.corrupted "v1" [.fpath "a"], true) :=
  (c6_check_commit_transition (.stable "v1") [.fpath "a"]).1 "v1" rfl (by decide)

/-! ## C4 -/

/-- C4 (code_bug evidence): with the default build options — the single
`raw` compressor, whose size gates default to `minsize = 0` and
`maxsize = u64::MAX` — a zero-byte source slice reaches the ratio
computation `(data_size * 100) / final_size` with `final_size = 0` (the
raw encoding of an empty slice also has `data_size = 0`), and the u64
division by zero panics; the per-file task does not terminate normally
with an `Add` of `final_size = 0`. -/
theorem c4_best_encoder_panics_on_zero_byte_file :
    Speedupdate.best_encoder (fun _ => ⟨0, 0⟩) 0 Speedupdate.defaultCompressors =
      Speedupdate.RustResult.panics := by
  unfold Speedupdate.best_encoder Speedupdate.defaultCompressors Speedupdate.bestEncoderGo
  norm_num [Speedupdate.CoderOptions.max_size, Speedupdate.CoderOptions.min_size]

/-! ## C8 -/

/-- C8 (code_bug evidence): when the best patcher for a changed file is
`raw` and the best compressor over that raw patch output is (say) `zstd`,
`patch_file` emits an `Add` whose stored blob is the zstd-compressed
scratch file yet whose `data_compression` field says `raw`: the field does
not name the compressor that produced the stored data. -/
theorem c8_raw_fallback_mislabels_compression :
    (∃ a, Speedupdate.patchFileOperation
        { path := "f", slice := none, exe := false, slice_handler := none }
        100 ⟨9⟩
        ⟨"raw", 100, ⟨1⟩, 100, ⟨2⟩⟩
        ⟨"zstd", 40, ⟨3⟩, 100, ⟨4⟩⟩ = .add a ∧
      a.data_compression = "raw" ∧ a.data_size = 40 ∧ a.data_sha1 = ⟨3⟩) ∧
    Speedupdate.patchFileBlobProducer
        ⟨"raw", 100, ⟨1⟩, 100, ⟨2⟩⟩ ⟨"zstd", 40, ⟨3⟩, 100, ⟨4⟩⟩ = "zstd" ∧
    ("raw" : String) ≠ "zstd" := by
  refine ⟨⟨_, rfl, rfl, rfl, rfl⟩, rfl, by decide⟩

namespace Speedupdate

/-! ## Failure ordering and Rust binary search (workspace/updater.rs) -/

/-- Lexicographic three-way comparison of character lists; Rust's `str`
ordering compares UTF-8 bytes, which orders exactly like code points. -/
def cmpCharList : List Char → List Char → Ordering
  | [], [] => .eq
  | [], _ :: _ => .lt
  | _ :: _, [] => .gt
  | a :: as, b :: bs =>
    if a < b then .lt else if b < a then .gt else cmpCharList as bs

/-- Rust `str::cmp`. -/
def cmpStr (a b : String) : Ordering :=
  cmpCharList a.data b.data

/-- Rust `Option<CleanPath>::cmp`: `None` sorts before `Some`. -/
def cmpOptStr : Option String → Option String → Ordering
  | none, none => .eq
  | none, some _ => .lt
  | some _, none => .gt
  | some a, some b => cmpStr a b

/-- `Failure`'s comparison key (metadata/v1.rs 252-255): the
`(path, slice)` pair. -/
def failureKey (f : Failure) : String × Option String :=
  (f.path, f.slice)

/-- `Failure::cmp` (metadata/v1.rs 252-255): lexicographic on
`(path, slice)`. -/
def cmpPathSlice (a b : String × Option String) : Ordering :=
  (cmpStr a.1 b.1).then (cmpOptStr a.2 b.2)

/-- Core of Rust `slice::binary_search_by`: probe `f` on the midpoint of
`[left, right)` and narrow the interval; `fuel` only bounds the recursion
and never runs out when it starts at least at `right - left + 1`. -/
def rustBinSearchGo (f : Nat → Ordering) : Nat → Nat → Nat → Except Nat Nat
  | left, _, 0 => .error left
  | left, right, fuel + 1 =>
    if left < right then
      let mid := left + (right - left) / 2
      match f mid with
      | .lt => rustBinSearchGo f (mid + 1) right fuel
      | .gt => rustBinSearchGo f left mid fuel
      | .eq => .ok mid
    else .error left

/-- Rust `slice::binary_search_by_key(&target, key)` with an explicit
comparator: probes compare `key xs[mid]` with `target` (the out-of-range
arm of `List.get?` is never reached). -/
def rustBinarySearchByKey {α κ : Type} (xs : List α) (key : α → κ)
    (cmp : κ → κ → Ordering) (target : κ) : Except Nat Nat :=
  rustBinSearchGo
    (fun i => match xs.get? i with
      | some a => cmp (key a) target
      | none => .eq)
    0 xs.length (xs.length + 1)

/-- `Result::is_ok`. -/
def exceptIsOk {ε α : Type} : Except ε α → Bool
  | .ok _ => true
  | .error _ => false

/-! ## UpdateFilter (workspace/updater.rs 208-238) -/

/-- Embedding of `UpdateFilter::filter_map` (updater.rs 222-237): admit
the operation unchanged when the filter is empty or the `(path, slice)`
pair binary-searches among the failures; otherwise turn a sliced
operation whose path binary-searches among the failure paths into its
`Check` form; otherwise drop it. -/
def updateFilterFilterMap (failures : List Failure) (o : Operation) : Option Operation :=
  if failures.isEmpty ||
      exceptIsOk (rustBinarySearchByKey failures failureKey cmpPathSlice (o.path, o.slice)) then
    some o
  else if o.slice.isSome &&
      exceptIsOk (rustBinarySearchByKey failures Failure.path cmpStr o.path) then
    o.as_check_operation
  else
    none

/-- Modelled from the claim's words: admit the operation unchanged exactly
when its `(path, slice)` pair matches a recorded failure (a whole-path
failure matching operations without a slice); replace a sliced operation
whose path has some failed *slice* (but whose own slice did not fail) by
its `Check`-form operation; drop every other operation. -/
def claimFilterMap (failures : List Failure) (o : Operation) : Option Operation :=
  if (o.path, o.slice) ∈ failures.map failureKey then some o
  else if o.slice.isSome ∧ ∃ f ∈ failures, f.path = o.path ∧ f.slice.isSome then
    o.as_check_operation
  else none

/-- Modelled from the claim's words as amended: same as the claim except
that a sliced operation is converted to its `Check` form whenever its path
occurs among the failures in *any* shape (whole-path failures included),
the conversion yielding `none` (a drop) for a sliced `Rm`. -/
def claimFilterMapAmended (failures : List Failure) (o : Operation) : Option Operation :=
  if (o.path, o.slice) ∈ failures.map failureKey then some o
  else if o.slice.isSome ∧ ∃ f ∈ failures, f.path = o.path then
    o.as_check_operation
  else none

end Speedupdate

namespace Speedupdate

theorem cmpCharList_eq_iff : ∀ as bs, cmpCharList as bs = .eq ↔ as = bs
  | [], [] => by simp [cmpCharList]
  | [], _ :: _ => by simp [cmpCharList]
  | _ :: _, [] => by simp [cmpCharList]
  | a :: as, b :: bs => by
    unfold cmpCharList
    by_cases h1 : a < b
    · simp [h1, ne_of_lt h1]
    · by_cases h2 : b < a
      · simp [h1, h2, (ne_of_lt h2).symm]
      · have hab : a = b := le_antisymm (le_of_not_lt h2) (le_of_not_lt h1)
        simp [h1, h2, hab, cmpCharList_eq_iff as bs]

theorem cmpCharList_gt_iff : ∀ as bs, cmpCharList as bs = .gt ↔ cmpCharList bs as = .lt
  | [], [] => by simp [cmpCharList]
  | [], _ :: _ => by simp [cmpCharList]
  | _ :: _, [] => by simp [cmpCharList]
  | a :: as, b :: bs => by
    unfold cmpCharList
    by_cases h1 : a < b
    · simp [h1, lt_asymm h1]
    · by_cases h2 : b < a
      · simp [h1, h2]
      · simp [h1, h2, cmpCharList_gt_iff as bs]

theorem cmpCharList_lt_trans :
    ∀ as bs cs, cmpCharList as bs = .lt → cmpCharList bs cs = .lt →
      cmpCharList as cs = .lt
  | [], [], _, h1, _ => by simp [cmpCharList] at h1
  | [], _ :: _, [], _, h2 => by simp [cmpCharList] at h2
  | [], _ :: _, _ :: _, _, _ => by simp [cmpCharList]
  | _ :: _, [], _, h1, _ => by simp [cmpCharList] at h1
  | _ :: _, _ :: _, [], _, h2 => by simp [cmpCharList] at h2
  | a :: as, b :: bs, c :: cs, h1, h2 => by
    simp only [cmpCharList] at h1 h2 ⊢
    by_cases hab : a < b
    · by_cases hbc : b < c
      · simp [lt_trans hab hbc]
      · by_cases hcb : c < b
        · rw [if_neg hbc, if_pos hcb] at h2
          cases h2
        · have hbceq : b = c := le_antisymm (le_of_not_lt hcb) (le_of_not_lt hbc)
          rw [← hbceq]
          simp [hab]
    · by_cases hba : b < a
      · rw [if_neg hab, if_pos hba] at h1
        cases h1
      · have habeq : a = b := le_antisymm (le_of_not_lt hba) (le_of_not_lt hab)
        rw [if_neg hab, if_neg hba] at h1
        by_cases hbc : b < c
        · rw [habeq]
          simp [hbc]
        · by_cases hcb : c < b
          · rw [if_neg hbc, if_pos hcb] at h2
            cases h2
          · rw [if_neg hbc, if_neg hcb] at h2
            rw [habeq, if_neg hbc, if_neg hcb]
            exact cmpCharList_lt_trans as bs cs h1 h2

theorem cmpStr_eq_iff (a b : String) : cmpStr a b = .eq ↔ a = b := by
  unfold cmpStr
  rw [cmpCharList_eq_iff]
  constructor
  · intro h
    exact congrArg String.mk h
  · intro h; rw [h]

theorem cmpStr_gt_iff (a b : String) : cmpStr a b = .gt ↔ cmpStr b a = .lt :=
  cmpCharList_gt_iff a.data b.data

theorem cmpStr_lt_trans (a b c : String) :
    cmpStr a b = .lt → cmpStr b c = .lt → cmpStr a c = .lt :=
  cmpCharList_lt_trans a.data b.data c.data

theorem cmpStr_refl (a : String) : cmpStr a a = .eq :=
  (cmpStr_eq_iff a a).2 rfl

theorem cmpOptStr_eq_iff : ∀ a b, cmpOptStr a b = .eq ↔ a = b
  | none, none => by simp [cmpOptStr]
  | none, some _ => by simp [cmpOptStr]
  | some _, none => by simp [cmpOptStr]
  | some x, some y => by simp [cmpOptStr, cmpStr_eq_iff]

theorem cmpOptStr_gt_iff : ∀ a b, cmpOptStr a b = .gt ↔ cmpOptStr b a = .lt
  | none, none => by simp [cmpOptStr]
  | none, some _ => by simp [cmpOptStr]
  | some _, none => by simp [cmpOptStr]
  | some x, some y => by simpa [cmpOptStr] using cmpStr_gt_iff x y

theorem cmpOptStr_lt_trans :
    ∀ a b c, cmpOptStr a b = .lt → cmpOptStr b c = .lt → cmpOptStr a c = .lt
  | none, _, some _, _, _ => by simp [cmpOptStr]
  | none, none, none, h1, _ => by simp [cmpOptStr] at h1
  | none, some _, none, _, h2 => by simp [cmpOptStr] at h2
  | some _, none, _, h1, _ => by simp [cmpOptStr] at h1
  | some _, some _, none, _, h2 => by simp [cmpOptStr] at h2
  | some x, some y, some z, h1, h2 => by
    simp only [cmpOptStr] at h1 h2 ⊢
    exact cmpStr_lt_trans x y z h1 h2

theorem cmpPathSlice_eq_iff (a b : String × Option String) :
    cmpPathSlice a b = .eq ↔ a = b := by
  unfold cmpPathSlice
  cases h1 : cmpStr a.1 b.1 with
  | lt =>
    simp only [Ordering.then]
    constructor
    · intro h; cases h
    · intro h
      subst h
      rw [cmpStr_refl] at h1
      cases h1
  | gt =>
    simp only [Ordering.then]
    constructor
    · intro h; cases h
    · intro h
      subst h
      rw [cmpStr_refl] at h1
      cases h1
  | eq =>
    have hp : a.1 = b.1 := (cmpStr_eq_iff _ _).1 h1
    simp only [Ordering.then, cmpOptStr_eq_iff]
    constructor
    · intro h
      exact Prod.ext hp h
    · intro h; rw [h]

theorem cmpPathSlice_gt_iff (a b : String × Option String) :
    cmpPathSlice a b = .gt ↔ cmpPathSlice b a = .lt := by
  unfold cmpPathSlice
  cases h1 : cmpStr a.1 b.1 with
  | lt =>
    have h3 : cmpStr b.1 a.1 = .gt := (cmpStr_gt_iff _ _).2 h1
    simp [Ordering.then, h3]
  | gt =>
    have h3 : cmpStr b.1 a.1 = .lt := (cmpStr_gt_iff _ _).1 h1
    simp [Ordering.then, h3]
  | eq =>
    have hp : a.1 = b.1 := (cmpStr_eq_iff _ _).1 h1
    have h3 : cmpStr b.1 a.1 = .eq := (cmpStr_eq_iff _ _).2 hp.symm
    simp [Ordering.then, h3, cmpOptStr_gt_iff]

theorem cmpPathSlice_lt_trans (a b c : String × Option String) :
    cmpPathSlice a b = .lt → cmpPathSlice b c = .lt → cmpPathSlice a c = .lt := by
  unfold cmpPathSlice
  intro h1 h2
  cases hab : cmpStr a.1 b.1 with
  | gt => simp [Ordering.then, hab] at h1
  | lt =>
    cases hbc : cmpStr b.1 c.1 with
    | gt => simp [Ordering.then, hbc] at h2
    | lt =>
      have hl := cmpStr_lt_trans _ _ _ hab hbc
      simp [Ordering.then, hl]
    | eq =>
      have hp : b.1 = c.1 := (cmpStr_eq_iff _ _).1 hbc
      have hl : cmpStr a.1 c.1 = .lt := hp ▸ hab
      simp [Ordering.then, hl]
  | eq =>
    have hp : a.1 = b.1 := (cmpStr_eq_iff _ _).1 hab
    rw [hab] at h1
    simp only [Ordering.then] at h1
    cases hbc : cmpStr b.1 c.1 with
    | gt => simp [Ordering.then, hbc] at h2
    | lt =>
      have hl : cmpStr a.1 c.1 = .lt := hp ▸ hbc
      simp [Ordering.then, hl]
    | eq =>
      rw [hbc] at h2
      simp only [Ordering.then] at h2
      have hq : cmpStr a.1 c.1 = .eq := by
        rw [cmpStr_eq_iff, hp]
        exact (cmpStr_eq_iff _ _).1 hbc
      simp only [Ordering.then, hq]
      exact cmpOptStr_lt_trans _ _ _ h1 h2

end Speedupdate

namespace Speedupdate

theorem cmp_not_gt_lt_trans {κ : Type} (cmp : κ → κ → Ordering)
    (heq : ∀ a b, cmp a b = .eq ↔ a = b)
    (htr : ∀ a b c, cmp a b = .lt → cmp b c = .lt → cmp a c = .lt) :
    ∀ a b c, cmp a b ≠ .gt → cmp b c = .lt → cmp a c = .lt := by
  intro a b c hab hbc
  cases h : cmp a b with
  | lt => exact htr _ _ _ h hbc
  | eq =>
    have := (heq a b).1 h
    rw [this]
    exact hbc
  | gt => exact absurd h hab

theorem cmp_not_gt_gt_trans {κ : Type} (cmp : κ → κ → Ordering)
    (heq : ∀ a b, cmp a b = .eq ↔ a = b)
    (hgt : ∀ a b, cmp a b = .gt ↔ cmp b a = .lt)
    (htr : ∀ a b c, cmp a b = .lt → cmp b c = .lt → cmp a c = .lt) :
    ∀ a b c, cmp a b ≠ .gt → cmp a c = .gt → cmp b c = .gt := by
  intro a b c hab hac
  cases h : cmp b c with
  | gt => rfl
  | eq =>
    have := (heq b c).1 h
    subst this
    exact absurd hac hab
  | lt =>
    have h1 : cmp c a = .lt := (hgt a c).1 hac
    have h2 : cmp b a = .lt := htr _ _ _ h h1
    exact absurd ((hgt a b).2 h2) hab

theorem rustBinSearchGo_ok_iff (f : Nat → Ordering) (n : Nat)
    (hmono : ∀ i j, i ≤ j → j < n →
      (f j = .lt → f i = .lt) ∧ (f i = .gt → f j = .gt)) :
    ∀ fuel left right, right - left < fuel → right ≤ n →
      ((∃ m, rustBinSearchGo f left right fuel = .ok m) ↔
        ∃ i, left ≤ i ∧ i < right ∧ f i = .eq) := by
  intro fuel
  induction fuel with
  | zero =>
    intro left right hlt _
    omega
  | succ fuel ih =>
    intro left right hfuel hn
    by_cases hlr : left < right
    · have hmidlt : left + (right - left) / 2 < right := by omega
      have hmidge : left ≤ left + (right - left) / 2 := by omega
      simp only [rustBinSearchGo, if_pos hlr]
      cases hfm : f (left + (right - left) / 2) with
      | eq =>
        constructor
        · intro _
          exact ⟨left + (right - left) / 2, hmidge, hmidlt, hfm⟩
        · intro _
          exact ⟨left + (right - left) / 2, rfl⟩
      | lt =>
        rw [ih (left + (right - left) / 2 + 1) right (by omega) hn]
        constructor
        · rintro ⟨i, h1, h2, h3⟩
          exact ⟨i, by omega, h2, h3⟩
        · rintro ⟨i, h1, h2, h3⟩
          by_cases hi : left + (right - left) / 2 + 1 ≤ i
          · exact ⟨i, hi, h2, h3⟩
          · have hile : i ≤ left + (right - left) / 2 := by omega
            have := (hmono i (left + (right - left) / 2) hile
              (lt_of_lt_of_le hmidlt hn)).1 hfm
            rw [this] at h3
            cases h3
      | gt =>
        rw [ih left (left + (right - left) / 2) (by omega)
          (le_trans (le_of_lt hmidlt) hn)]
        constructor
        · rintro ⟨i, h1, h2, h3⟩
          exact ⟨i, h1, by omega, h3⟩
        · rintro ⟨i, h1, h2, h3⟩
          by_cases hi : i < left + (right - left) / 2
          · exact ⟨i, h1, hi, h3⟩
          · have hmi : left + (right - left) / 2 ≤ i := by omega
            have := (hmono (left + (right - left) / 2) i hmi
              (lt_of_lt_of_le h2 hn)).2 hfm
            rw [this] at h3
            cases h3
    · simp only [rustBinSearchGo, if_neg hlr]
      constructor
      · rintro ⟨m, hm⟩
        cases hm
      · rintro ⟨i, h1, h2, _⟩
        omega

theorem exceptIsOk_eq_true {ε α : Type} (e : Except ε α) :
    exceptIsOk e = true ↔ ∃ m, e = .ok m := by
  cases e with
  | error x => simp [exceptIsOk]
  | ok m => simp [exceptIsOk]

theorem rustBinarySearchByKey_ok_iff {α κ : Type} (xs : List α) (key : α → κ)
    (cmp : κ → κ → Ordering) (t : κ)
    (heq : ∀ a b, cmp a b = .eq ↔ a = b)
    (hgt : ∀ a b, cmp a b = .gt ↔ cmp b a = .lt)
    (htr : ∀ a b c, cmp a b = .lt → cmp b c = .lt → cmp a c = .lt)
    (hs : List.Pairwise (fun a b => cmp (key a) (key b) ≠ .gt) xs) :
    exceptIsOk (rustBinarySearchByKey xs key cmp t) = true ↔ t ∈ xs.map key := by
  have hrel : ∀ i j (hij : i < j) (hj : j < xs.length),
      cmp (key (xs.get ⟨i, lt_trans hij hj⟩)) (key (xs.get ⟨j, hj⟩)) ≠ .gt := by
    intro i j hij hj
    exact List.pairwise_iff_get.1 hs ⟨i, lt_trans hij hj⟩ ⟨j, hj⟩ hij
  have hmono : ∀ i j, i ≤ j → j < xs.length →
      (((fun i => match xs.get? i with
          | some a => cmp (key a) t
          | none => .eq) j = .lt →
        (fun i => match xs.get? i with
          | some a => cmp (key a) t
          | none => .eq) i = .lt) ∧
       ((fun i => match xs.get? i with
          | some a => cmp (key a) t
          | none => .eq) i = .gt →
        (fun i => match xs.get? i with
          | some a => cmp (key a) t
          | none => .eq) j = .gt)) := by
    intro i j hij hj
    have hi : i < xs.length := lt_of_le_of_lt hij hj
    have hgi : xs.get? i = some (xs.get ⟨i, hi⟩) := List.get?_eq_get hi
    have hgj : xs.get? j = some (xs.get ⟨j, hj⟩) := List.get?_eq_get hj
    simp only [hgi, hgj]
    rcases Nat.eq_or_lt_of_le hij with hij' | hij'
    · subst hij'
      constructor
      · intro h; exact h
      · intro h; exact h
    · have hne := hrel i j hij' hj
      constructor
      · intro h
        exact cmp_not_gt_lt_trans cmp heq htr _ _ _ hne h
      · intro h
        exact cmp_not_gt_gt_trans cmp heq hgt htr _ _ _ hne h
  rw [exceptIsOk_eq_true]
  unfold rustBinarySearchByKey
  rw [rustBinSearchGo_ok_iff _ xs.length hmono (xs.length + 1) 0 xs.length
    (by omega) (le_refl _)]
  constructor
  · rintro ⟨i, _, hilt, hieq⟩
    have hgi : xs.get? i = some (xs.get ⟨i, hilt⟩) := List.get?_eq_get hilt
    simp only [hgi] at hieq
    have : key (xs.get ⟨i, hilt⟩) = t := (heq _ _).1 hieq
    rw [← this]
    exact List.mem_map_of_mem key (xs.get_mem i hilt)
  · intro hmem
    rcases List.mem_map.1 hmem with ⟨a, ha, hka⟩
    rcases List.mem_iff_get.1 ha with ⟨⟨i, hi⟩, hget⟩
    refine ⟨i, Nat.zero_le _, hi, ?_⟩
    have hgi : xs.get? i = some (xs.get ⟨i, hi⟩) := List.get?_eq_get hi
    simp only [hgi]
    rw [heq, hget, hka]

end Speedupdate

/-! ## C7 -/

/-- A sliced `Check` operation for path `b`, slice `s`. -/
def c7bOp : Speedupdate.Operation :=
  .check { common := { path := "b", slice := some "s", exe := false, slice_handler := none }
           local_offset := 0, local_size := 1, local_sha1 := ⟨1⟩ }

/-- A sliced `Add` operation for path `a`, slice `s`, as a replacement
package would carry during repair. -/
def c7Op : Speedupdate.Operation :=
  .add { common := { path := "a", slice := some "s", exe := false, slice_handler := none }
         data_offset := 0, data_size := 1, data_sha1 := ⟨0⟩, data_compression := "raw"
         final_offset := 0, final_size := 1, final_sha1 := ⟨1⟩ }

/-- C7 counterexample: with the (sorted, non-empty) failure list
`[Path "a"]` — a whole-path failure, no failed slice at all — the code's
filter turns the sliced operation `(path "a", slice "s")` into its
`Check` form, while the claim (whose conversion clause requires the path
to have some failed *slice*, and whose admission clause does not match)
says the operation is dropped. -/
theorem c7_filter_map_counterexample :
    List.Pairwise
      (fun f g => Speedupdate.cmpPathSlice (Speedupdate.failureKey f)
        (Speedupdate.failureKey g) ≠ .gt) [Speedupdate.Failure.fpath "a"] ∧
    ([Speedupdate.Failure.fpath "a"] : List Speedupdate.Failure) ≠ [] ∧
    Speedupdate.updateFilterFilterMap [Speedupdate.Failure.fpath "a"] c7Op =
      c7Op.as_check_operation ∧
    c7Op.as_check_operation ≠ none ∧
    Speedupdate.claimFilterMap [Speedupdate.Failure.fpath "a"] c7Op = none ∧
    Speedupdate.updateFilterFilterMap [Speedupdate.Failure.fpath "a"] c7Op ≠
      Speedupdate.claimFilterMap [Speedupdate.Failure.fpath "a"] c7Op := by
  refine ⟨by decide, by decide, by decide, by decide, by decide, by decide⟩

/-- C7 amended: during the repair pass (failures non-empty and sorted by
`Failure`'s `(path, slice)` order), the update filter admits an operation
unchanged exactly when its `(path, slice)` pair matches a recorded failure
(a whole-path failure matching operations without a slice); a sliced
operation whose path occurs among the failures in any shape, but whose own
`(path, slice)` pair did not fail, is replaced by its `Check`-form
operation (which drops a sliced `Rm`); every other operation is dropped. -/
theorem c7_update_filter_repair_characterization
    (failures : List Speedupdate.Failure) (o : Speedupdate.Operation)
    (hne : failures ≠ [])
    (hs : List.Pairwise
      (fun f g => Speedupdate.cmpPathSlice (Speedupdate.failureKey f)
        (Speedupdate.failureKey g) ≠ .gt) failures) :
    Speedupdate.updateFilterFilterMap failures o =
      Speedupdate.claimFilterMapAmended failures o := by
  have hemp : failures.isEmpty = false := by
    cases failures with
    | nil => exact absurd rfl hne
    | cons a l => rfl
  have h1 : Speedupdate.exceptIsOk
      (Speedupdate.rustBinarySearchByKey failures Speedupdate.failureKey
        Speedupdate.cmpPathSlice (o.path, o.slice)) = true ↔
      (o.path, o.slice) ∈ failures.map Speedupdate.failureKey :=
    Speedupdate.rustBinarySearchByKey_ok_iff failures Speedupdate.failureKey
      Speedupdate.cmpPathSlice (o.path, o.slice)
      Speedupdate.cmpPathSlice_eq_iff Speedupdate.cmpPathSlice_gt_iff
      Speedupdate.cmpPathSlice_lt_trans hs
  have hspath : List.Pairwise
      (fun f g => Speedupdate.cmpStr (Speedupdate.Failure.path f)
        (Speedupdate.Failure.path g) ≠ .gt) failures := by
    refine hs.imp ?_
    intro f g h hgt
    apply h
    unfold Speedupdate.cmpPathSlice
    rw [show Speedupdate.cmpStr (Speedupdate.failureKey f).1
      (Speedupdate.failureKey g).1 = .gt from hgt]
    rfl
  have h2 : Speedupdate.exceptIsOk
      (Speedupdate.rustBinarySearchByKey failures Speedupdate.Failure.path
        Speedupdate.cmpStr o.path) = true ↔
      o.path ∈ failures.map Speedupdate.Failure.path :=
    Speedupdate.rustBinarySearchByKey_ok_iff failures Speedupdate.Failure.path
      Speedupdate.cmpStr o.path
      Speedupdate.cmpStr_eq_iff Speedupdate.cmpStr_gt_iff
      Speedupdate.cmpStr_lt_trans hspath
  unfold Speedupdate.updateFilterFilterMap Speedupdate.claimFilterMapAmended
  rw [hemp]
  by_cases hmem : (o.path, o.slice) ∈ failures.map Speedupdate.failureKey
  · rw [if_pos hmem, h1.2 hmem]
    rfl
  · rw [if_neg hmem]
    have h1f : Speedupdate.exceptIsOk
        (Speedupdate.rustBinarySearchByKey failures Speedupdate.failureKey
          Speedupdate.cmpPathSlice (o.path, o.slice)) = false := by
      cases h : Speedupdate.exceptIsOk
          (Speedupdate.rustBinarySearchByKey failures Speedupdate.failureKey
            Speedupdate.cmpPathSlice (o.path, o.slice)) with
      | false => rfl
      | true => exact absurd (h1.1 h) hmem
    rw [h1f]
    simp only [Bool.or_self, Bool.false_eq_true, if_false]
    by_cases hsl : o.slice.isSome
    · by_cases hpath : o.path ∈ failures.map Speedupdate.Failure.path
      · rw [h2.2 hpath]
        have hcond : (o.slice.isSome ∧ ∃ f ∈ failures,
            Speedupdate.Failure.path f = o.path) := by
          refine ⟨hsl, ?_⟩
          rcases List.mem_map.1 hpath with ⟨f, hf, hfp⟩
          exact ⟨f, hf, hfp⟩
        rw [if_pos hcond, hsl]
        rfl
      · have h2f : Speedupdate.exceptIsOk
            (Speedupdate.rustBinarySearchByKey failures Speedupdate.Failure.path
              Speedupdate.cmpStr o.path) = false := by
          cases h : Speedupdate.exceptIsOk
              (Speedupdate.rustBinarySearchByKey failures Speedupdate.Failure.path
                Speedupdate.cmpStr o.path) with
          | false => rfl
          | true => exact absurd (h2.1 h) hpath
        rw [h2f]
        have hcond : ¬ (o.slice.isSome ∧ ∃ f ∈ failures,
            Speedupdate.Failure.path f = o.path) := by
          rintro ⟨_, f, hf, hfp⟩
          exact hpath (List.mem_map.2 ⟨f, hf, hfp⟩)
        rw [if_neg hcond]
        simp
    · have hslf : o.slice.isSome = false := by
        cases h : o.slice.isSome with
        | false => rfl
        | true => exact absurd h hsl
      rw [hslf]
      simp

/-- C7 witness: a sorted two-failure list where an exactly-failed slice is
admitted unchanged. -/
theorem c7_update_filter_repair_witness :
    Speedupdate.updateFilterFilterMap
        [Speedupdate.Failure.fpath "a", Speedupdate.Failure.fslice "b" "s"] c7bOp =
      Speedupdate.claimFilterMapAmended
        [Speedupdate.Failure.fpath "a", Speedupdate.Failure.fslice "b" "s"] c7bOp :=
  c7_update_filter_repair_characterization
    [Speedupdate.Failure.fpath "a", Speedupdate.Failure.fslice "b" "s"] c7bOp
    (by decide) (by decide)

namespace Speedupdate

/-! ## Applier / watermark interplay (workspace/apply.rs, updater.rs)

The applier thread of `apply_package` (apply.rs 180-360) is modelled as a
transition system.  The downloader is abstracted into the watermark it
publishes through `ApplyStream::notify`: an arbitrary monotonically
non-decreasing `cell` value.  Every other transition is read off the
applier loop. -/

theorem UpdatePosition.le_iff {a b : UpdatePosition} :
    a.le b ↔ (a.operation_idx < b.operation_idx ∨
      (a.operation_idx = b.operation_idx ∧ a.byte_idx ≤ b.byte_idx)) := by
  unfold UpdatePosition.le UpdatePosition.lt
  constructor
  · rintro (h | rfl)
    · rcases h with h | ⟨h1, h2⟩
      · exact Or.inl h
      · exact Or.inr ⟨h1, le_of_lt h2⟩
    · exact Or.inr ⟨rfl, le_refl _⟩
  · rintro (h | ⟨h1, h2⟩)
    · exact Or.inl (Or.inl h)
    · rcases lt_or_eq_of_le h2 with h3 | h3
      · exact Or.inl (Or.inr ⟨h1, h3⟩)
      · right
        cases a
        cases b
        simp_all

theorem UpdatePosition.le_trans' {a b c : UpdatePosition}
    (h1 : a.le b) (h2 : b.le c) : a.le c := by
  rw [UpdatePosition.le_iff] at *
  omega

theorem UpdatePosition.le_of_lt' {a b : UpdatePosition} (h : a.lt b) : a.le b :=
  Or.inl h

/-- What kind of work one operation requires of the applier thread:
`data n` for `Add`/`Patch` with `expected_input_bytes = n` (the scratch
bytes are streamed under the watermark); `await0` for operations whose
applier consumes no input bytes but still waits for the watermark before
opening files (`Check` under `--check`); `skip` for operations whose
handler returns no applier at all (`Rm`, `MkDir`, `RmDir`, and `Check`
outside check mode, handlers/direct.rs 70-109). -/
inductive ApplyKind where
  | data (n : Nat)
  | await0
  | skip
deriving DecidableEq, Repr

/-- Joint state of the watermark cell (`AvailableForApply`) and the
applier thread: its `applied_data` position, the operations not yet
begun, and the operation currently being processed. -/
structure ApplyLoopState where
  cell : UpdatePosition
  applied : UpdatePosition
  pending : List (Nat × ApplyKind)
  phase : Option ApplyKind
deriving DecidableEq, Repr

/-- One transition of the system.

* `dlAdvance` — the downloader publishes a larger watermark
  (`ApplyStream::notify`, apply.rs 133-138; emitted positions only grow).
* `beginOp` — the applier enters `apply_operation` for the next
  operation: `applied_data.operation_idx = operation_idx`,
  `applied_data.byte_idx = 0` (apply.rs 204-205).
* `skipOp` — an operation without an applier object finishes immediately
  and advances `applied` with **no** look at the watermark
  (apply.rs 344-346: the wait sits inside `if let Some(mut applier)`).
* `waitDone` — a zero-input applier waits until `applied < available`
  (apply.rs 235) and then commits and advances.
* `readBytes` — one pass of the streaming loop (apply.rs 252-296): wait
  for some published watermark `snap` with `applied < snap`, then read at
  most `snap.byte_idx - applied.byte_idx` bytes when `snap` sits on the
  same operation (`remaining` otherwise), never beyond the
  `n = expected_input_bytes` total.
* `finishData` — the streaming loop has consumed all `n` bytes (for
  `n = 0` the pre-open wait still fires) and the operation commits and
  advances (apply.rs 345-346).
* `pkgBoundary` — the per-package commit stream of the orchestrator
  resets `available` and `applied` to `(0,0)` before the next package
  (updater.rs 534-537). -/
inductive ApplyStep : ApplyLoopState → ApplyLoopState → Prop where
  | dlAdvance (s : ApplyLoopState) (c' : UpdatePosition) :
      s.cell.le c' →
      ApplyStep s { s with cell := c' }
  | beginOp (s : ApplyLoopState) (j : Nat) (k : ApplyKind)
      (rest : List (Nat × ApplyKind)) :
      s.phase = none → s.pending = (j, k) :: rest →
      ApplyStep s { s with applied := ⟨j, 0⟩, phase := some k, pending := rest }
  | skipOp (s : ApplyLoopState) :
      s.phase = some .skip →
      ApplyStep s
        { s with applied := ⟨s.applied.operation_idx + 1, 0⟩, phase := none }
  | waitDone (s : ApplyLoopState) (snap : UpdatePosition) :
      s.phase = some .await0 →
      snap.le s.cell → s.applied.lt snap →
      ApplyStep s
        { s with applied := ⟨s.applied.operation_idx + 1, 0⟩, phase := none }
  | readBytes (s : ApplyLoopState) (n : Nat) (snap : UpdatePosition) (k : Nat) :
      s.phase = some (.data n) →
      snap.le s.cell → s.applied.lt snap →
      1 ≤ k →
      k ≤ (if snap.operation_idx = s.applied.operation_idx
           then snap.byte_idx - s.applied.byte_idx
           else n - s.applied.byte_idx) →
      s.applied.byte_idx + k ≤ n →
      ApplyStep s
        { s with applied := ⟨s.applied.operation_idx, s.applied.byte_idx + k⟩ }
  | finishData (s : ApplyLoopState) (n : Nat) (snap : UpdatePosition) :
      s.phase = some (.data n) → s.applied.byte_idx = n →
      (n = 0 → snap.le s.cell ∧ s.applied.lt snap) →
      ApplyStep s
        { s with applied := ⟨s.applied.operation_idx + 1, 0⟩, phase := none }
  | pkgBoundary (s : ApplyLoopState) (ops' : List (Nat × ApplyKind)) :
      s.phase = none → s.pending = [] →
      ApplyStep s { cell := ⟨0, 0⟩, applied := ⟨0, 0⟩, pending := ops', phase := none }

/-- Reflexive-transitive closure of `ApplyStep`. -/
inductive ApplyReachable : ApplyLoopState → ApplyLoopState → Prop where
  | refl (s : ApplyLoopState) : ApplyReachable s s
  | tail {s t u : ApplyLoopState} :
      ApplyReachable s t → ApplyStep t u → ApplyReachable s u

end Speedupdate

/-! ## C3 -/

/-- C3 counterexample: from a fresh package whose first operation carries
no applier (an `Rm`/`MkDir`-style operation) followed by a 10-byte `Add`,
the applier advances past the first operation without consulting the
watermark, reaching `applied = (1, 0)` while `available = (0, 0)`: the
claimed invariant `applied ≤ available` fails at an observable point. -/
theorem c3_applied_le_available_counterexample :
    ∃ s : Speedupdate.ApplyLoopState,
      Speedupdate.ApplyReachable
        ⟨⟨0, 0⟩, ⟨0, 0⟩, [(0, .skip), (1, .data 10)], none⟩ s ∧
      ¬ s.applied.le s.cell := by
  refine ⟨⟨⟨0, 0⟩, ⟨1, 0⟩, [(1, .data 10)], none⟩, ?_, by decide⟩
  have h1 : Speedupdate.ApplyStep
      ⟨⟨0, 0⟩, ⟨0, 0⟩, [(0, .skip), (1, .data 10)], none⟩
      ⟨⟨0, 0⟩, ⟨0, 0⟩, [(1, .data 10)], some .skip⟩ :=
    Speedupdate.ApplyStep.beginOp _ 0 .skip _ rfl rfl
  have h2 : Speedupdate.ApplyStep
      ⟨⟨0, 0⟩, ⟨0, 0⟩, [(1, .data 10)], some .skip⟩
      ⟨⟨0, 0⟩, ⟨1, 0⟩, [(1, .data 10)], none⟩ :=
    Speedupdate.ApplyStep.skipOp _ rfl
  exact .tail (.tail (.refl _) h1) h2

/-- C3 amended: along every run of the applier loop begun with
`applied_data.byte_idx = 0` (as `apply_package` does), whenever the
applier has consumed a nonzero number of bytes of its current operation,
`applied ≤ available` holds under the lexicographic order: inside the
byte-streaming of an operation the applier blocks until
`applied < available` and never reads past the watermark, and both
positions are reset to `(0,0)` at each package boundary; only the
boundary points of operations without an applier object escape the
invariant. -/
theorem c3_applied_le_available_while_streaming
    (init s : Speedupdate.ApplyLoopState)
    (h0 : init.applied.byte_idx = 0)
    (hreach : Speedupdate.ApplyReachable init s) :
    s.applied.byte_idx ≠ 0 → s.applied.le s.cell := by
  induction hreach with
  | refl => intro h; exact absurd h0 h
  | tail hr hstep ih =>
    rename_i t _
    cases hstep with
    | dlAdvance c' hc =>
      intro hb
      exact Speedupdate.UpdatePosition.le_trans' (ih hb) hc
    | beginOp j k rest hp hpend =>
      intro hb
      exact absurd rfl hb
    | skipOp hp =>
      intro hb
      exact absurd rfl hb
    | waitDone snap hp hsc hlt =>
      intro hb
      exact absurd rfl hb
    | readBytes n snap k hp hsc hlt hk1 hkcap hkn =>
      intro _
      rcases hlt with hop | ⟨hop, hbyte⟩
      · refine Speedupdate.UpdatePosition.le_trans' ?_ hsc
        rw [Speedupdate.UpdatePosition.le_iff]
        exact Or.inl hop
      · by_cases hsame : snap.operation_idx = t.applied.operation_idx
        · rw [if_pos hsame] at hkcap
          refine Speedupdate.UpdatePosition.le_trans' ?_ hsc
          rw [Speedupdate.UpdatePosition.le_iff]
          right
          constructor
          · exact hsame.symm
          · show t.applied.byte_idx + k ≤ snap.byte_idx
            omega
        · exact absurd hop.symm hsame
    | finishData n snap hp hb hw =>
      intro hb'
      exact absurd rfl hb'
    | pkgBoundary ops' hp hpend =>
      intro hb
      exact absurd rfl hb

/-- C3 witness: a two-step run (begin a 3-byte `Add`, stream 2 bytes under
watermark `(0,5)`) whose mid-stream state satisfies the invariant. -/
theorem c3_applied_le_available_while_streaming_witness :
    (⟨0, 2⟩ : Speedupdate.UpdatePosition).le ⟨0, 5⟩ := by
  have h1 : Speedupdate.ApplyStep
      ⟨⟨0, 5⟩, ⟨0, 0⟩, [(0, .data 3)], none⟩
      ⟨⟨0, 5⟩, ⟨0, 0⟩, [], some (.data 3)⟩ :=
    Speedupdate.ApplyStep.beginOp _ 0 (.data 3) _ rfl rfl
  have h2 : Speedupdate.ApplyStep
      ⟨⟨0, 5⟩, ⟨0, 0⟩, [], some (.data 3)⟩
      ⟨⟨0, 5⟩, ⟨0, 2⟩, [], some (.data 3)⟩ :=
    Speedupdate.ApplyStep.readBytes _ 3 ⟨0, 5⟩ 2 rfl (Or.inr rfl)
      (by decide) (by decide) (by decide) (by decide)
  exact c3_applied_le_available_while_streaming
    ⟨⟨0, 5⟩, ⟨0, 0⟩, [(0, .data 3)], none⟩
    ⟨⟨0, 5⟩, ⟨0, 2⟩, [], some (.data 3)⟩
    rfl (.tail (.tail (.refl _) h1) h2) (by decide)

namespace Speedupdate

/-! ## Path planner (src/src/storage/dijkstra.rs and
src/lib/src/metadata/mod.rs 476-536; the lib crate declares
`mod dijkstra` whose file matches src/src/storage/dijkstra.rs) -/

/-- `dijkstra::Edge`. -/
structure Edge where
  node : Nat
  cost : Nat
deriving DecidableEq, Repr

/-- `dijkstra::Track`. -/
structure Track where
  dist : Nat
  prev : Option Nat
deriving DecidableEq, Repr

/-- `dijkstra::State`: a heap entry. -/
structure HState where
  cost : Nat
  position : Nat
deriving DecidableEq, Repr

/-- `State`'s flipped `Ord` (dijkstra.rs 14-24): `a` sorts below `b`
exactly when `b` has the smaller cost, or the same cost and the larger
position, so `BinaryHeap::pop` yields a least-cost entry (largest
position on ties). -/
def heapBelow (a b : HState) : Bool :=
  b.cost < a.cost || (b.cost == a.cost && a.position < b.position)

/-- `BinaryHeap::pop`'s choice: a maximal element under the flipped
order.  Entries unordered between each other are equal as values, so any
maximal choice is the same value; the fold keeps the first. -/
def heapPopMax : List HState → Option HState
  | [] => none
  | x :: xs => some (xs.foldl (fun best y => if heapBelow best y then y else best) x)

/-- The relaxation loop body (dijkstra.rs 88-103): for each outgoing edge
push an improved candidate and record the better distance and
predecessor. -/
def relaxEdges (position cost : Nat) (edges : List Edge)
    (track : List Track) (heap : List HState) : List Track × List HState :=
  edges.foldl
    (fun acc e =>
      if cost + e.cost < (acc.1.getD e.node ⟨0, none⟩).dist then
        (acc.1.set e.node ⟨cost + e.cost, some position⟩, ⟨cost + e.cost, e.node⟩ :: acc.2)
      else acc)
    (track, heap)

/-- The reconstruction loop (dijkstra.rs 73-77): follow `prev` pointers
from `p`, collecting the nodes visited before the first `prev = None`.
`fuel` bounds the loop; `none` models the Rust loop running forever on a
`prev` cycle (shown unreachable). -/
def prevChain (track : List Track) : Nat → Nat → Option (List Nat)
  | 0, _ => none
  | fuel + 1, p =>
    match (track.getD p ⟨0, none⟩).prev with
    | none => some []
    | some q => (prevChain track fuel q).map (fun l => p :: l)

/-- How a `dijkstra::shortest_path` call ends: a (reversed,
start-excluded) node path, the `None` of an unreachable goal, or a panic
(the `assert!(path.len() > 0)`, or — never in fact — a `prev` cycle). -/
inductive DijkstraOutcome where
  | found (path : List Nat)
  | unreachable
  | panicked
deriving DecidableEq, Repr

/-- The main loop of `dijkstra::shortest_path` (dijkstra.rs 69-104),
with `fuel` bounding the iteration count (outer `none` = fuel ran out;
a large enough fuel never does). -/
def dijkstraLoop (adj : List (List Edge)) (goal : Nat) :
    Nat → List Track → List HState → Option DijkstraOutcome
  | 0, _, _ => none
  | fuel + 1, track, heap =>
    match heapPopMax heap with
    | none => some .unreachable
    | some st =>
      let heap' := heap.erase st
      if st.position = goal then
        match prevChain track (track.length + 1) goal with
        | none => some .panicked
        | some l =>
          let path := l.reverse
          if path.length > 0 then some (.found path) else some .panicked
      else if st.cost > (track.getD st.position ⟨0, none⟩).dist then
        dijkstraLoop adj goal fuel track heap'
      else
        let acc := relaxEdges st.position st.cost (adj.getD st.position []) track heap'
        dijkstraLoop adj goal fuel acc.1 acc.2

/-- Sum of all tracked distances; with the heap size it bounds the
remaining iterations. -/
def trackMeasure (track : List Track) : Nat :=
  (track.map Track.dist).sum

/-- `u64::MAX`, the `dist` sentinel of dijkstra.rs 54. -/
def dijkstraInit (n startIdx : Nat) : List Track :=
  (List.replicate n ⟨u64Max, none⟩).set startIdx ⟨0, none⟩

/-- `dijkstra::shortest_path` (dijkstra.rs 50-108): all distances start
at the `u64::MAX` sentinel except `start` at 0, the heap holds
`(0, start)`, and the loop runs with provably sufficient fuel. -/
def dijkstra (adj : List (List Edge)) (startIdx goalIdx : Nat) : Option DijkstraOutcome :=
  let track0 := dijkstraInit adj.length startIdx
  dijkstraLoop adj goalIdx (trackMeasure track0 + [HState.mk 0 startIdx].length + 1)
    track0 [⟨0, startIdx⟩]

/-- `Package` as the planner sees it (the `Package` trait: `from()`,
`to()`, `size()`). -/
structure Package where
  from? : Option String
  to' : String
  size : Nat
deriving DecidableEq, Repr

/-- Index of a name among the nodes created so far (the embedding of the
`name_to_idx` hash map: names are inserted exactly once, so the map is
the index of `idx_to_name`). -/
def lookupIdx : List (Option String) → Option String → Option Nat
  | [], _ => none
  | x :: xs, nm => if x = nm then some 0 else (lookupIdx xs nm).map Nat.succ

/-- `get_node_idx` (metadata/mod.rs 487-498): reuse the node of a known
name, or append a fresh node. -/
def getNodeIdx (nodes : List (List Edge)) (names : List (Option String))
    (nm : Option String) : List (List Edge) × List (Option String) × Nat :=
  match lookupIdx names nm with
  | some i => (nodes, names, i)
  | none => (nodes ++ [[]], names ++ [nm], names.length)

/-- `nodes[from].push(Edge { ... })`. -/
def addEdge (nodes : List (List Edge)) (i : Nat) (e : Edge) : List (List Edge) :=
  nodes.set i (nodes.getD i [] ++ [e])

/-- The graph construction of `metadata::shortest_path`
(metadata/mod.rs 484-509): nodes for `None`, the start and the goal, the
zero-cost edge `start → ⊘` when the start is a version, and one edge per
package. -/
def buildGraph (start : Option String) (goal : String) (packages : List Package) :
    List (List Edge) × List (Option String) × Nat × Nat × Nat :=
  let s1 := getNodeIdx [] [] none
  let s2 := getNodeIdx s1.1 s1.2.1 start
  let s3 := getNodeIdx s2.1 s2.2.1 (some goal)
  let emptyIdx := s1.2.2
  let startIdx := s2.2.2
  let goalIdx := s3.2.2
  let n4 := if emptyIdx ≠ startIdx then addEdge s3.1 startIdx ⟨emptyIdx, 0⟩ else s3.1
  let s5 := packages.foldl
    (fun acc p =>
      let sa := getNodeIdx acc.1 acc.2 p.from?
      let sb := getNodeIdx sa.1 sa.2.1 (some p.to')
      (addEdge sb.1 sa.2.2 ⟨sb.2.2, p.size⟩, sb.2.1))
    (n4, s3.2.1)
  (s5.1, s5.2, emptyIdx, startIdx, goalIdx)

/-- How a `metadata::shortest_path` call ends. -/
inductive PlannerResult where
  | path (ps : List Package)
  | noPath
  | panicked
deriving DecidableEq, Repr

/-- The package-recovery loop of `metadata::shortest_path`
(metadata/mod.rs 520-530): map each node back to its name and take the
first package joining the running `from` to it (nothing is pushed when no
package matches, as on the `⊘` node). -/
def collectChain (names : List (Option String)) (packages : List Package) :
    Option String → List Nat → List Package
  | _, [] => []
  | cur, p :: rest =>
    let toName := names.getD p none
    match packages.find? (fun pk => decide (pk.from? = cur ∧ some pk.to' = toName)) with
    | some pk => pk :: collectChain names packages toName rest
    | none => collectChain names packages toName rest

/-- `metadata::shortest_path` (metadata/mod.rs 476-536): build the graph,
run dijkstra, strip the leading `⊘` node (switching `from` to `None`),
recover the packages, and assert the stripped path non-empty. -/
def shortest_path (start : Option String) (goal : String) (packages : List Package) :
    Option PlannerResult :=
  let g := buildGraph start goal packages
  let nodes := g.1
  let names := g.2.1
  let emptyIdx := g.2.2.1
  let startIdx := g.2.2.2.1
  let goalIdx := g.2.2.2.2
  match dijkstra nodes startIdx goalIdx with
  | none => none
  | some .panicked => some .panicked
  | some .unreachable => some .noPath
  | some (.found path) =>
    let strip := emptyIdx ≠ startIdx ∧ path.head? = some emptyIdx
    let stripped := if strip then path.tail else path
    let from0 := if strip then none else start
    if stripped.length > 0 then
      some (.path (collectChain names packages from0 stripped))
    else
      some .panicked

end Speedupdate

namespace Speedupdate

/-- Walks in the adjacency structure: `Walk adj u v c` holds when some
walk leads from node `u` to node `v` with edge costs summing to `c`. -/
inductive Walk (adj : List (List Edge)) : Nat → Nat → Nat → Prop where
  | nil (u : Nat) : Walk adj u u 0
  | cons {u v w ec c : Nat} :
      (⟨v, ec⟩ : Edge) ∈ adj.getD u [] → Walk adj v w c → Walk adj u w (ec + c)

/-- A walk together with its node trace: `PathCost adj u l c` holds when
`l` lists the successive nodes visited after `u` along edges of total
cost `c`. -/
inductive PathCost (adj : List (List Edge)) : Nat → List Nat → Nat → Prop where
  | nil (u : Nat) : PathCost adj u [] 0
  | cons {u v : Nat} {rest : List Nat} {ec c : Nat} :
      (⟨v, ec⟩ : Edge) ∈ adj.getD u [] → PathCost adj v rest c →
      PathCost adj u (v :: rest) (ec + c)

/-- Every edge of the graph stays inside the node table. -/
def AdjWF (adj : List (List Edge)) : Prop :=
  ∀ i, ∀ e ∈ adj.getD i [], e.node < adj.length

/-- The tracked distance of a node. -/
def tdist (track : List Track) (v : Nat) : Nat :=
  (track.getD v ⟨0, none⟩).dist

/-- The tracked predecessor of a node. -/
def tprev (track : List Track) (v : Nat) : Option Nat :=
  (track.getD v ⟨0, none⟩).prev

/-- The loop invariant of the embedded dijkstra, with the settled nodes
`S` (in settling order) as ghost state. -/
structure DijInv (adj : List (List Edge)) (start goal : Nat)
    (track : List Track) (heap : List HState) (S : List Nat) : Prop where
  len : track.length = adj.length
  distLe : ∀ v, tdist track v ≤ u64Max
  startDist : tdist track start = 0
  startPrev : tprev track start = none
  achieve : ∀ v, v < adj.length → tdist track v ≠ u64Max →
    Walk adj start v (tdist track v)
  heapMem : ∀ e ∈ heap, e.position < adj.length ∧
    tdist track e.position ≤ e.cost ∧ e.cost < u64Max ∧
    (e.position ≠ start → (tprev track e.position).isSome)
  settledMin : ∀ u ∈ S, ∀ c, Walk adj start u c → tdist track u ≤ c
  settledMem : ∀ u ∈ S, u < adj.length ∧ u ≠ goal ∧ tdist track u ≠ u64Max ∧
    (u ≠ start → (tprev track u).isSome)
  settledRelax : ∀ u ∈ S, ∀ e ∈ adj.getD u [],
    tdist track e.node ≤ tdist track u + e.cost
  frontier : ∀ v, v < adj.length → v ∉ S → tdist track v ≠ u64Max →
    (⟨tdist track v, v⟩ : HState) ∈ heap
  prevOk : ∀ v, v < adj.length → ∀ p, tprev track v = some p →
    p ∈ S ∧ ∃ e ∈ adj.getD p [], e.node = v ∧
      tdist track v = tdist track p + e.cost
  prevRank : ∀ i, (hi : i < S.length) → ∀ p,
    tprev track (S.get ⟨i, hi⟩) = some p → ∃ j, j < i ∧ S.get? j = some p

end Speedupdate

namespace Speedupdate

theorem heapBelow_cost_le {x y : HState} (hb : heapBelow x y = true) :
    y.cost ≤ x.cost := by
  unfold heapBelow at hb
  simp only [Bool.or_eq_true, Bool.and_eq_true, decide_eq_true_eq, beq_iff_eq] at hb
  rcases hb with hb | ⟨hb, _⟩
  · exact le_of_lt hb
  · exact le_of_eq hb

theorem heapBelow_not_cost_le {x y : HState} (hb : ¬ heapBelow x y = true) :
    x.cost ≤ y.cost := by
  unfold heapBelow at hb
  simp only [Bool.or_eq_true, Bool.and_eq_true, decide_eq_true_eq, beq_iff_eq,
    not_or, not_and, not_lt] at hb
  exact hb.1

theorem heapFold_spec (xs : List HState) :
    ∀ x : HState,
      (xs.foldl (fun best y => if heapBelow best y then y else best) x) ∈ x :: xs ∧
      ∀ e ∈ x :: xs,
        (xs.foldl (fun best y => if heapBelow best y then y else best) x).cost ≤ e.cost := by
  induction xs with
  | nil =>
    intro x
    refine ⟨by simp, ?_⟩
    intro e he
    simp only [List.mem_singleton] at he
    rw [he]
    exact le_refl _
  | cons y ys ih =>
    intro x
    by_cases hb : heapBelow x y
    · simp only [List.foldl_cons, if_pos hb]
      rcases ih y with ⟨hmem, hmin⟩
      refine ⟨List.mem_cons_of_mem _ hmem, ?_⟩
      intro e he
      rcases List.mem_cons.1 he with h | h
      · rw [h]
        exact le_trans (hmin y (List.mem_cons_self _ _)) (heapBelow_cost_le hb)
      · exact hmin e h
    · simp only [List.foldl_cons, if_neg hb]
      rcases ih x with ⟨hmem, hmin⟩
      constructor
      · rcases List.mem_cons.1 hmem with h | h
        · rw [h]
          exact List.mem_cons_self _ _
        · exact List.mem_cons_of_mem _ (List.mem_cons_of_mem _ h)
      · intro e he
        rcases List.mem_cons.1 he with h | h
        · rw [h]
          exact hmin x (List.mem_cons_self _ _)
        · rcases List.mem_cons.1 h with h' | h'
          · rw [h']
            exact le_trans (hmin x (List.mem_cons_self _ _)) (heapBelow_not_cost_le hb)
          · exact hmin e (List.mem_cons_of_mem _ h')

theorem heapPopMax_mem {h : List HState} {m : HState}
    (hp : heapPopMax h = some m) : m ∈ h := by
  cases h with
  | nil => cases hp
  | cons x xs =>
    unfold heapPopMax at hp
    have := (heapFold_spec xs x).1
    rw [Option.some_inj.1 hp] at this
    exact this

theorem heapPopMax_min {h : List HState} {m : HState}
    (hp : heapPopMax h = some m) : ∀ e ∈ h, m.cost ≤ e.cost := by
  cases h with
  | nil => cases hp
  | cons x xs =>
    unfold heapPopMax at hp
    have := (heapFold_spec xs x).2
    rw [Option.some_inj.1 hp] at this
    exact this

theorem heapPopMax_none_iff {h : List HState} : heapPopMax h = none ↔ h = [] := by
  cases h with
  | nil => simp [heapPopMax]
  | cons x xs => simp [heapPopMax]

theorem getD_set_self : ∀ (l : List Track) (i : Nat) (t : Track), i < l.length →
    (l.set i t).getD i ⟨0, none⟩ = t
  | [], i, t, h => by cases h
  | a :: l, 0, t, _ => rfl
  | a :: l, i + 1, t, h => by
    simpa using getD_set_self l i t (Nat.lt_of_succ_lt_succ h)

theorem getD_set_ne : ∀ (l : List Track) (i j : Nat) (t : Track), i ≠ j →
    (l.set i t).getD j ⟨0, none⟩ = l.getD j ⟨0, none⟩
  | [], _, _, _, _ => by simp
  | a :: l, 0, 0, t, h => absurd rfl h
  | a :: l, 0, j + 1, t, _ => by simp [List.getD]
  | a :: l, i + 1, 0, t, _ => by simp [List.getD]
  | a :: l, i + 1, j + 1, t, h => by
    have := getD_set_ne l i j t (by omega)
    simpa using this

theorem tdist_set_self {track : List Track} {i : Nat} {t : Track}
    (hi : i < track.length) : tdist (track.set i t) i = t.dist := by
  unfold tdist
  rw [getD_set_self track i t hi]

theorem tdist_set_ne {track : List Track} {i j : Nat} {t : Track}
    (hij : i ≠ j) : tdist (track.set i t) j = tdist track j := by
  unfold tdist
  rw [getD_set_ne track i j t hij]

theorem tprev_set_self {track : List Track} {i : Nat} {t : Track}
    (hi : i < track.length) : tprev (track.set i t) i = t.prev := by
  unfold tprev
  rw [getD_set_self track i t hi]

theorem tprev_set_ne {track : List Track} {i j : Nat} {t : Track}
    (hij : i ≠ j) : tprev (track.set i t) j = tprev track j := by
  unfold tprev
  rw [getD_set_ne track i j t hij]

theorem sum_set_nat : ∀ (l : List Nat) (i : Nat) (x : Nat), i < l.length →
    (l.set i x).sum + l.getD i 0 = l.sum + x
  | [], i, x, h => by cases h
  | a :: l, 0, x, _ => by simp [Nat.add_comm, Nat.add_left_comm]
  | a :: l, i + 1, x, h => by
    have := sum_set_nat l i x (Nat.lt_of_succ_lt_succ h)
    simp only [List.set, List.sum_cons, List.getD, List.get?]
    simp only [List.getD] at this
    omega

theorem trackMeasure_set {track : List Track} {i : Nat} {t : Track}
    (hi : i < track.length) :
    trackMeasure (track.set i t) + tdist track i = trackMeasure track + t.dist := by
  unfold trackMeasure tdist
  have hmap : (track.set i t).map Track.dist = (track.map Track.dist).set i t.dist := by
    rw [List.map_set]
  rw [hmap]
  have hlen : i < (track.map Track.dist).length := by simpa using hi
  have := sum_set_nat (track.map Track.dist) i t.dist hlen
  have hgd : (track.map Track.dist).getD i 0 = (track.getD i ⟨0, none⟩).dist := by
    rcases List.get?_eq_get hi with hg
    unfold List.getD
    rw [List.get?_map, hg]
    rfl
  omega

end Speedupdate

namespace Speedupdate

theorem walk_snoc {adj : List (List Edge)} {u v w a ec : Nat}
    (hw : Walk adj u v a) (he : (⟨w, ec⟩ : Edge) ∈ adj.getD v []) :
    Walk adj u w (a + ec) := by
  induction hw with
  | nil x =>
    have := Walk.cons he (Walk.nil w)
    simpa using this
  | cons hedge hsub ih =>
    have h2 := Walk.cons hedge (ih he)
    rename_i ec' c'
    have : ec' + (c' + ec) = ec' + c' + ec := by omega
    rw [this] at h2
    exact h2

theorem PathCost.toWalk {adj : List (List Edge)} {u : Nat} {l : List Nat} {a : Nat}
    (h : PathCost adj u l a) : Walk adj u (l.getLastD u) a := by
  induction h with
  | nil x => exact Walk.nil x
  | cons hedge hsub ih =>
    rename_i u' v' rest ec c
    have : (v' :: rest).getLastD u' = rest.getLastD v' := by
      cases rest <;> simp [List.getLastD]
    rw [this]
    exact Walk.cons hedge ih

theorem pathCost_snoc {adj : List (List Edge)} {u : Nat} {l : List Nat} {a : Nat}
    {w ec : Nat} (h : PathCost adj u l a)
    (he : (⟨w, ec⟩ : Edge) ∈ adj.getD (l.getLastD u) []) :
    PathCost adj u (l ++ [w]) (a + ec) := by
  induction h with
  | nil x =>
    simp only [List.getLastD] at he
    have := PathCost.cons he (PathCost.nil w)
    simpa using this
  | cons hedge hsub ih =>
    rename_i u' v' rest ec' c'
    have hl : (v' :: rest).getLastD u' = rest.getLastD v' := by
      cases rest <;> simp [List.getLastD]
    rw [hl] at he
    have h2 := PathCost.cons hedge (ih he)
    have : ec' + (c' + ec) = ec' + c' + ec := by omega
    rw [this] at h2
    exact h2

theorem walk_frontier {adj : List (List Edge)} {start goal : Nat}
    {track : List Track} {heap : List HState} {S : List Nat}
    (inv : DijInv adj start goal track heap S) (hwf : AdjWF adj) :
    ∀ u v w, Walk adj u v w → ∀ b, u < adj.length → tdist track u ≤ b →
      b + w < u64Max →
      tdist track v ≤ b + w ∨
      ∃ q, q < adj.length ∧ q ∉ S ∧ tdist track q ≠ u64Max ∧
        tdist track q ≤ b + w := by
  intro u v w hwalk
  induction hwalk with
  | nil x =>
    intro b hu hub _
    left
    simpa using hub
  | cons hedge hsub ih =>
    rename_i u' v' w' ec c
    intro b hu hub hlt
    by_cases hus : u' ∈ S
    · have hx : tdist track v' ≤ tdist track u' + ec :=
        inv.settledRelax u' hus ⟨v', ec⟩ hedge
      have hv : v' < adj.length := hwf u' ⟨v', ec⟩ hedge
      have hrec := ih (b + ec) hv (by omega) (by omega)
      rcases hrec with h | ⟨q, hq1, hq2, hq3, hq4⟩
      · left
        omega
      · right
        exact ⟨q, hq1, hq2, hq3, by omega⟩
    · right
      refine ⟨u', hu, hus, ?_, by omega⟩
      have h1 : tdist track u' ≤ b := hub
      intro hD
      rw [hD] at h1
      omega

theorem popped_min_walks {adj : List (List Edge)} {start goal : Nat}
    {track : List Track} {heap : List HState} {S : List Nat} {st : HState}
    (inv : DijInv adj start goal track heap S) (hwf : AdjWF adj)
    (hs : start < adj.length)
    (hmem : st ∈ heap) (hmin : ∀ e ∈ heap, st.cost ≤ e.cost)
    (hd : tdist track st.position ≤ st.cost) :
    ∀ c, Walk adj start st.position c → tdist track st.position ≤ c := by
  intro c hwalk
  by_cases hcD : c < u64Max
  · by_contra hlt
    push_neg at hlt
    have h0 : tdist track start ≤ 0 := le_of_eq inv.startDist
    have := walk_frontier inv hwf start st.position c hwalk 0 hs h0 (by omega)
    rcases this with h | ⟨q, hq1, hq2, hq3, hq4⟩
    · omega
    · have hfr := inv.frontier q hq1 hq2 hq3
      have hge := hmin _ hfr
      simp only at hge
      omega
  · have := inv.distLe st.position
    omega

end Speedupdate

namespace Speedupdate

/-- The invariant carried through the relaxation fold of a surviving pop
of node `p` at cost `c`: `track0` is the track at pop time, `S` the
settled list, `m0` the measure budget. -/
structure RelaxInv (adj : List (List Edge)) (start p : Nat) (c : Nat)
    (track0 : List Track) (S : List Nat) (m0 : Nat)
    (tr : List Track) (hp : List HState) : Prop where
  len : tr.length = track0.length
  mono : ∀ v, tdist tr v ≤ tdist track0 v
  pDist : tdist tr p = tdist track0 p
  pPrev : tprev tr p = tprev track0 p
  startDist : tdist tr start = 0
  startPrev : tprev tr start = none
  settledDist : ∀ u ∈ S, tdist tr u = tdist track0 u
  settledPrev : ∀ u ∈ S, tprev tr u = tprev track0 u
  achieve : ∀ v, v < adj.length → tdist tr v ≠ u64Max → Walk adj start v (tdist tr v)
  heapMem : ∀ e ∈ hp, e.position < adj.length ∧ tdist tr e.position ≤ e.cost ∧
    e.cost < u64Max ∧ (e.position ≠ start → (tprev tr e.position).isSome)
  frontier : ∀ v, v < adj.length → v ∉ S → v ≠ p → tdist tr v ≠ u64Max →
    (⟨tdist tr v, v⟩ : HState) ∈ hp
  prevOk : ∀ v, v < adj.length → ∀ q, tprev tr v = some q →
    (q ∈ S ∨ q = p) ∧ ∃ e ∈ adj.getD q [], e.node = v ∧
      tdist tr v = tdist tr q + e.cost
  meas : trackMeasure tr + hp.length ≤ m0

/-- One relaxation step preserves `RelaxInv`; additionally the processed
edge's target distance is bounded and distances keep shrinking. -/
theorem relax_step {adj : List (List Edge)} {start p c : Nat}
    {track0 : List Track} {S : List Nat} {m0 : Nat}
    {tr : List Track} {hp : List HState}
    (hwf : AdjWF adj) (hlen0 : track0.length = adj.length)
    (hpc : tdist track0 p = c) (hcD : c < u64Max)
    (hwalkp : Walk adj start p c)
    (hSmin : ∀ u ∈ S, ∀ w, Walk adj start u w → tdist track0 u ≤ w)
    (hDle : ∀ v, tdist track0 v ≤ u64Max)
    (R : RelaxInv adj start p c track0 S m0 tr hp)
    (e : Edge) (he : e ∈ adj.getD p []) :
    RelaxInv adj start p c track0 S m0
      (if c + e.cost < (tr.getD e.node ⟨0, none⟩).dist
        then tr.set e.node ⟨c + e.cost, some p⟩ else tr)
      (if c + e.cost < (tr.getD e.node ⟨0, none⟩).dist
        then ⟨c + e.cost, e.node⟩ :: hp else hp) ∧
    tdist (if c + e.cost < (tr.getD e.node ⟨0, none⟩).dist
        then tr.set e.node ⟨c + e.cost, some p⟩ else tr) e.node ≤ c + e.cost ∧
    (∀ v, tdist (if c + e.cost < (tr.getD e.node ⟨0, none⟩).dist
        then tr.set e.node ⟨c + e.cost, some p⟩ else tr) v ≤ tdist tr v) := by
  have holddist : tdist tr e.node = (tr.getD e.node ⟨0, none⟩).dist := rfl
  by_cases hrel : c + e.cost < (tr.getD e.node ⟨0, none⟩).dist
  · rw [if_pos hrel, if_pos hrel]
    have hnode : e.node < adj.length := hwf p e he
    have hnlen : e.node < tr.length := by rw [R.len, hlen0]; exact hnode
    have hedge : (⟨e.node, e.cost⟩ : Edge) ∈ adj.getD p [] := he
    have hep : e.node ≠ p := by
      intro hcontra
      have h2 : tdist tr p = c := by rw [R.pDist, hpc]
      rw [← hcontra] at h2
      omega
    have hestart : e.node ≠ start := by
      intro hcontra
      have h2 : tdist tr start = 0 := R.startDist
      rw [← hcontra] at h2
      omega
    have heS : e.node ∉ S := by
      intro hcontra
      have hw : Walk adj start e.node (c + e.cost) := walk_snoc hwalkp hedge
      have h1 := hSmin e.node hcontra (c + e.cost) hw
      have h2 := R.settledDist e.node hcontra
      omega
    have hdists : ∀ v, tdist (tr.set e.node ⟨c + e.cost, some p⟩) v =
        if v = e.node then c + e.cost else tdist tr v := by
      intro v
      by_cases hv : v = e.node
      · rw [hv, if_pos rfl, tdist_set_self hnlen]
      · rw [if_neg hv, tdist_set_ne (fun h => hv h.symm)]
    have hprevs : ∀ v, tprev (tr.set e.node ⟨c + e.cost, some p⟩) v =
        if v = e.node then some p else tprev tr v := by
      intro v
      by_cases hv : v = e.node
      · rw [hv, if_pos rfl, tprev_set_self hnlen]
      · rw [if_neg hv, tprev_set_ne (fun h => hv h.symm)]
    refine ⟨⟨?_, ?_, ?_, ?_, ?_, ?_, ?_, ?_, ?_, ?_, ?_, ?_, ?_⟩, ?_, ?_⟩
    · rw [List.length_set]; exact R.len
    · intro v
      rw [hdists v]
      by_cases hv : v = e.node
      · rw [if_pos hv, hv]
        have h1 := R.mono e.node
        omega
      · rw [if_neg hv]; exact R.mono v
    · rw [hdists p, if_neg (fun h => hep h.symm)]; exact R.pDist
    · rw [hprevs p, if_neg (fun h => hep h.symm)]; exact R.pPrev
    · rw [hdists start, if_neg (fun h => hestart h.symm)]; exact R.startDist
    · rw [hprevs start, if_neg (fun h => hestart h.symm)]; exact R.startPrev
    · intro u hu
      rw [hdists u, if_neg (by intro h; exact heS (h ▸ hu))]
      exact R.settledDist u hu
    · intro u hu
      rw [hprevs u, if_neg (by intro h; exact heS (h ▸ hu))]
      exact R.settledPrev u hu
    · intro v hv hD
      rw [hdists v] at hD ⊢
      by_cases hveq : v = e.node
      · rw [if_pos hveq] at hD ⊢
        rw [hveq]
        exact walk_snoc hwalkp hedge
      · rw [if_neg hveq] at hD ⊢
        exact R.achieve v hv hD
    · intro x hx
      rcases List.mem_cons.1 hx with hx1 | hx1
      · rw [hx1]
        refine ⟨hnode, ?_, ?_, ?_⟩
        · rw [hdists e.node, if_pos rfl]
        · show c + e.cost < u64Max
          have hd := R.mono e.node
          have hD2 := hDle e.node
          omega
        · intro _
          rw [hprevs e.node, if_pos rfl]
          rfl
      · rcases R.heapMem x hx1 with ⟨h1, h2, h3, h4⟩
        refine ⟨h1, ?_, h3, ?_⟩
        · rw [hdists x.position]
          by_cases hveq : x.position = e.node
          · rw [if_pos hveq]
            rw [hveq] at h2
            omega
          · rw [if_neg hveq]; exact h2
        · intro h5
          rw [hprevs x.position]
          by_cases hveq : x.position = e.node
          · rw [if_pos hveq]; rfl
          · rw [if_neg hveq]; exact h4 h5
    · intro v hv hvS hvp hD
      rw [hdists v] at hD ⊢
      by_cases hveq : v = e.node
      · rw [if_pos hveq] at hD ⊢
        rw [hveq]
        exact List.mem_cons_self _ _
      · rw [if_neg hveq] at hD ⊢
        exact List.mem_cons_of_mem _ (R.frontier v hv hvS hvp hD)
    · intro v hv q hq
      rw [hprevs v] at hq
      by_cases hveq : v = e.node
      · subst hveq
        rw [if_pos rfl] at hq
        have hqp : q = p := (Option.some_inj.1 hq).symm
        refine ⟨Or.inr hqp, ⟨e.node, e.cost⟩, ?_, rfl, ?_⟩
        · rw [hqp]
          exact hedge
        · rw [hqp, hdists e.node, if_pos rfl, hdists p,
            if_neg (fun h => hep h.symm), R.pDist, hpc]
      · rw [if_neg hveq] at hq
        rcases R.prevOk v hv q hq with ⟨hqS, e', he', hen, hde⟩
        have hqne : q ≠ e.node := by
          intro hcontra
          rcases hqS with hqS | hqS
          · exact heS (hcontra ▸ hqS)
          · exact hep (by rw [← hcontra]; exact hqS)
        refine ⟨hqS, e', he', hen, ?_⟩
        rw [hdists v, if_neg hveq, hdists q, if_neg hqne]
        exact hde
    · have hm := trackMeasure_set (t := ⟨c + e.cost, some p⟩) hnlen
      have hmeas := R.meas
      have ht : ({ dist := c + e.cost, prev := some p } : Track).dist = c + e.cost := rfl
      simp only [List.length_cons]
      omega
    · rw [hdists e.node, if_pos rfl]
    · intro v
      rw [hdists v]
      by_cases hv : v = e.node
      · rw [if_pos hv, hv]
        omega
      · rw [if_neg hv]
  · rw [if_neg hrel, if_neg hrel]
    refine ⟨R, ?_, fun v => le_refl _⟩
    omega

end Speedupdate

namespace Speedupdate

theorem relax_fold {adj : List (List Edge)} {start p c : Nat}
    {track0 : List Track} {S : List Nat} {m0 : Nat}
    (hwf : AdjWF adj) (hlen0 : track0.length = adj.length)
    (hpc : tdist track0 p = c) (hcD : c < u64Max)
    (hwalkp : Walk adj start p c)
    (hSmin : ∀ u ∈ S, ∀ w, Walk adj start u w → tdist track0 u ≤ w)
    (hDle : ∀ v, tdist track0 v ≤ u64Max) :
    ∀ (es : List Edge), (∀ e ∈ es, e ∈ adj.getD p []) →
    ∀ (tr : List Track) (hp : List HState),
      RelaxInv adj start p c track0 S m0 tr hp →
      RelaxInv adj start p c track0 S m0
        (es.foldl
          (fun acc e =>
            if c + e.cost < (acc.1.getD e.node ⟨0, none⟩).dist then
              (acc.1.set e.node ⟨c + e.cost, some p⟩, ⟨c + e.cost, e.node⟩ :: acc.2)
            else acc)
          (tr, hp)).1
        (es.foldl
          (fun acc e =>
            if c + e.cost < (acc.1.getD e.node ⟨0, none⟩).dist then
              (acc.1.set e.node ⟨c + e.cost, some p⟩, ⟨c + e.cost, e.node⟩ :: acc.2)
            else acc)
          (tr, hp)).2 ∧
      (∀ e ∈ es, tdist
        (es.foldl
          (fun acc e =>
            if c + e.cost < (acc.1.getD e.node ⟨0, none⟩).dist then
              (acc.1.set e.node ⟨c + e.cost, some p⟩, ⟨c + e.cost, e.node⟩ :: acc.2)
            else acc)
          (tr, hp)).1 e.node ≤ c + e.cost) ∧
      (∀ v, tdist
        (es.foldl
          (fun acc e =>
            if c + e.cost < (acc.1.getD e.node ⟨0, none⟩).dist then
              (acc.1.set e.node ⟨c + e.cost, some p⟩, ⟨c + e.cost, e.node⟩ :: acc.2)
            else acc)
          (tr, hp)).1 v ≤ tdist tr v) := by
  intro es
  induction es with
  | nil =>
    intro _ tr hp R
    refine ⟨R, ?_, ?_⟩
    · intro e he
      cases he
    · intro v
      exact le_refl _
  | cons e es' ih =>
    intro hes tr hp R
    have he : e ∈ adj.getD p [] := hes e (List.mem_cons_self _ _)
    have hstep := relax_step hwf hlen0 hpc hcD hwalkp hSmin hDle R e he
    have hsplit :
        (if c + e.cost < (((tr, hp) : List Track × List HState).1.getD e.node ⟨0, none⟩).dist then
            (((tr, hp) : List Track × List HState).1.set e.node ⟨c + e.cost, some p⟩,
              ⟨c + e.cost, e.node⟩ :: ((tr, hp) : List Track × List HState).2)
          else ((tr, hp) : List Track × List HState)) =
          ((if c + e.cost < (tr.getD e.node ⟨0, none⟩).dist
            then tr.set e.node ⟨c + e.cost, some p⟩ else tr),
           (if c + e.cost < (tr.getD e.node ⟨0, none⟩).dist
            then ⟨c + e.cost, e.node⟩ :: hp else hp)) := by
      by_cases hcond : c + e.cost < (tr.getD e.node ⟨0, none⟩).dist
      · rw [if_pos hcond, if_pos hcond, if_pos hcond]
      · rw [if_neg hcond, if_neg hcond, if_neg hcond]
    rw [List.foldl_cons, hsplit]
    rcases hstep with ⟨R1, hbound, hmono1⟩
    rcases ih (fun x hx => hes x (List.mem_cons_of_mem _ hx)) _ _ R1 with
      ⟨R2, hbounds, hmono2⟩
    refine ⟨R2, ?_, ?_⟩
    · intro x hx
      rcases List.mem_cons.1 hx with hx1 | hx1
      · rw [hx1]
        exact le_trans (hmono2 e.node) hbound
      · exact hbounds x hx1
    · intro v
      exact le_trans (hmono2 v) (hmono1 v)

end Speedupdate

namespace Speedupdate

/-- First index of `v` in `S` (length if absent). -/
def minIdx : List Nat → Nat → Nat
  | [], _ => 0
  | x :: xs, v => if x = v then 0 else minIdx xs v + 1

theorem minIdx_lt_length : ∀ {S : List Nat} {v : Nat}, v ∈ S → minIdx S v < S.length := by
  intro S
  induction S with
  | nil => intro v h; cases h
  | cons x xs ih =>
    intro v h
    unfold minIdx
    by_cases hx : x = v
    · rw [if_pos hx]
      simp
    · rw [if_neg hx]
      have : v ∈ xs := by
        rcases List.mem_cons.1 h with h1 | h1
        · exact absurd h1.symm hx
        · exact h1
      have := ih this
      simp only [List.length_cons]
      omega

theorem get?_minIdx : ∀ {S : List Nat} {v : Nat}, v ∈ S → S.get? (minIdx S v) = some v := by
  intro S
  induction S with
  | nil => intro v h; cases h
  | cons x xs ih =>
    intro v h
    unfold minIdx
    by_cases hx : x = v
    · rw [if_pos hx, hx]
      rfl
    · rw [if_neg hx]
      have : v ∈ xs := by
        rcases List.mem_cons.1 h with h1 | h1
        · exact absurd h1.symm hx
        · exact h1
      simpa using ih this

theorem minIdx_le : ∀ {S : List Nat} {v : Nat} {j : Nat}, S.get? j = some v → minIdx S v ≤ j := by
  intro S
  induction S with
  | nil => intro v j h; simp at h
  | cons x xs ih =>
    intro v j h
    unfold minIdx
    by_cases hx : x = v
    · rw [if_pos hx]
      omega
    · rw [if_neg hx]
      cases j with
      | zero =>
        simp only [List.get?] at h
        exact absurd (Option.some_inj.1 h) hx
      | succ j' =>
        simp only [List.get?] at h
        have := ih h
        omega

theorem prevChain_settled {adj : List (List Edge)} {start : Nat}
    {track : List Track} {S : List Nat}
    (hprevOk : ∀ v, v < adj.length → ∀ p, tprev track v = some p →
      p ∈ S ∧ ∃ e ∈ adj.getD p [], e.node = v ∧
        tdist track v = tdist track p + e.cost)
    (hsMem : ∀ u ∈ S, u < adj.length ∧ (u ≠ start → (tprev track u).isSome))
    (hrank : ∀ i, (hi : i < S.length) → ∀ p,
      tprev track (S.get ⟨i, hi⟩) = some p → ∃ j, j < i ∧ S.get? j = some p)
    (hstartDist : tdist track start = 0) :
    ∀ k u, u ∈ S → minIdx S u = k →
      ∃ l, (∀ fuel, l.length < fuel → prevChain track fuel u = some l) ∧
        PathCost adj start l.reverse (tdist track u) ∧
        (l.reverse).getLastD start = u ∧
        (∀ x ∈ l, x ∈ S ∧ minIdx S x ≤ k ∧ (tprev track x).isSome) ∧
        l.Nodup := by
  intro k
  induction k using Nat.strong_induction_on with
  | _ k ih =>
    intro u huS hku
    have hun : u < adj.length := (hsMem u huS).1
    cases hp : tprev track u with
    | none =>
      have hustart : u = start := by
        by_contra hne
        have := (hsMem u huS).2 hne
        rw [hp] at this
        cases this
      refine ⟨[], ?_, ?_, ?_, ?_, List.nodup_nil⟩
      · intro fuel hfuel
        cases fuel with
        | zero => omega
        | succ f =>
          unfold prevChain
          rw [show (track.getD u ⟨0, none⟩).prev = tprev track u from rfl, hp]
      · have : tdist track u = 0 := by rw [hustart, hstartDist]
        rw [this]
        simp only [List.reverse_nil]
        exact PathCost.nil start
      · simp only [List.reverse_nil, List.getLastD]
        exact hustart.symm
      · intro x hx
        cases hx
    | some p =>
      rcases hprevOk u hun p hp with ⟨hpS, e, he, hen, hde⟩
      have hkS : minIdx S u < S.length := minIdx_lt_length huS
      have hget : S.get ⟨minIdx S u, hkS⟩ = u := by
        have := get?_minIdx huS
        rw [List.get?_eq_get hkS] at this
        exact Option.some_inj.1 this
      have hrk := hrank (minIdx S u) hkS p (by rw [hget]; exact hp)
      rcases hrk with ⟨j, hjlt, hjget⟩
      have hpk : minIdx S p ≤ j := minIdx_le hjget
      have hplt : minIdx S p < k := by omega
      rcases ih (minIdx S p) hplt p hpS rfl with ⟨lp, hlpfuel, hlppc, hlplast, hlpmem, hlpnd⟩
      refine ⟨u :: lp, ?_, ?_, ?_, ?_, ?_⟩
      · intro fuel hfuel
        cases fuel with
        | zero => simp at hfuel
        | succ f =>
          unfold prevChain
          rw [show (track.getD u ⟨0, none⟩).prev = tprev track u from rfl, hp]
          have : prevChain track f p = some lp := by
            apply hlpfuel
            simp only [List.length_cons] at hfuel
            omega
          show Option.map (fun l => u :: l) (prevChain track f p) = some (u :: lp)
          rw [this]
          rfl
      · rw [List.reverse_cons, hde]
        refine pathCost_snoc hlppc ?_
        rw [hlplast, ← hen]
        exact he
      · rw [List.reverse_cons]
        simp [List.getLastD_concat]
      · intro x hx
        rcases List.mem_cons.1 hx with hx1 | hx1
        · rw [hx1]
          refine ⟨huS, by omega, ?_⟩
          rw [hp]
          rfl
        · rcases hlpmem x hx1 with ⟨h1, h2, h3⟩
          exact ⟨h1, by omega, h3⟩
      · rw [List.nodup_cons]
        constructor
        · intro hmem
          rcases hlpmem u hmem with ⟨_, h2, _⟩
          omega
        · exact hlpnd

end Speedupdate

namespace Speedupdate

theorem nodup_bounded_length {l : List Nat} {n : Nat} (hnd : l.Nodup)
    (hb : ∀ x ∈ l, x < n) : l.length ≤ n := by
  have h1 : l.toFinset.card = l.length := List.toFinset_card_of_nodup hnd
  have h2 : l.toFinset ⊆ Finset.range n := by
    intro x hx
    rw [Finset.mem_range]
    exact hb x (List.mem_toFinset.1 hx)
  have h3 := Finset.card_le_card h2
  rw [Finset.card_range] at h3
  omega

theorem sublist_sum_le {l₁ l₂ : List Nat} (h : l₁.Sublist l₂) : l₁.sum ≤ l₂.sum := by
  induction h with
  | slnil => exact le_refl _
  | cons a _ ih =>
    simp only [List.sum_cons]
    omega
  | cons₂ a _ ih =>
    simp only [List.sum_cons]
    omega

theorem pairwise_mem_rel {α : Type} {R : α → α → Prop} :
    ∀ {l : List α}, l.Pairwise R → ∀ {a b : α}, a ∈ l → b ∈ l →
      a = b ∨ R a b ∨ R b a := by
  intro l
  induction l with
  | nil => intro _ a b ha; cases ha
  | cons x xs ih =>
    intro hpw a b ha hb
    rcases List.pairwise_cons.1 hpw with ⟨hx, hxs⟩
    rcases List.mem_cons.1 ha with ha1 | ha1 <;> rcases List.mem_cons.1 hb with hb1 | hb1
    · left; rw [ha1, hb1]
    · right; left
      rw [ha1]
      exact hx b hb1
    · right; right
      rw [hb1]
      exact hx a ha1
    · exact ih hxs ha1 hb1

/-- What `DijkstraOutcome.found path` guarantees: a non-empty duplicate-free
node path from `start` (excluded) to `goal` whose cost is below the
sentinel and minimal over all walks. -/
def FoundSpec (adj : List (List Edge)) (start goal : Nat) (path : List Nat) : Prop :=
  path ≠ [] ∧ path.getLastD start = goal ∧ start ∉ path ∧ path.Nodup ∧
  (∀ x ∈ path, x < adj.length) ∧
  ∃ d, PathCost adj start path d ∧ d < u64Max ∧ ∀ c, Walk adj start goal c → d ≤ c

/-- What `DijkstraOutcome.unreachable` guarantees: every walk to the goal
costs at least the `u64::MAX` sentinel. -/
def UnreachSpec (adj : List (List Edge)) (start goal : Nat) : Prop :=
  ∀ c, Walk adj start goal c → u64Max ≤ c

theorem prevChain_goal {adj : List (List Edge)} {start goal : Nat}
    {track : List Track} {heap : List HState} {S : List Nat}
    (inv : DijInv adj start goal track heap S) (hsg : goal ≠ start)
    (hgn : goal < adj.length) {p0 : Nat} (hpg : tprev track goal = some p0) :
    ∃ l, prevChain track (track.length + 1) goal = some (goal :: l) ∧
      PathCost adj start (goal :: l).reverse (tdist track goal) ∧
      ((goal :: l).reverse).getLastD start = goal ∧
      (goal :: l).Nodup ∧ (∀ x ∈ goal :: l, x < adj.length) ∧
      start ∉ goal :: l := by
  rcases inv.prevOk goal hgn p0 hpg with ⟨hp0S, e, he, hen, hde⟩
  have hsMem : ∀ u ∈ S, u < adj.length ∧ (u ≠ start → (tprev track u).isSome) :=
    fun u hu => ⟨(inv.settledMem u hu).1, (inv.settledMem u hu).2.2.2⟩
  rcases prevChain_settled inv.prevOk hsMem inv.prevRank inv.startDist
      (minIdx S p0) p0 hp0S rfl with ⟨lp, hlpf, hlppc, hlplast, hlpmem, hlpnd⟩
  have hgoalS : goal ∉ S := fun hg => (inv.settledMem goal hg).2.1 rfl
  have hgoallp : goal ∉ lp := fun hmem => hgoalS (hlpmem goal hmem).1
  have hnd : (goal :: lp).Nodup := List.nodup_cons.2 ⟨hgoallp, hlpnd⟩
  have hbnd : ∀ x ∈ goal :: lp, x < adj.length := by
    intro x hx
    rcases List.mem_cons.1 hx with hx1 | hx1
    · rw [hx1]; exact hgn
    · exact (inv.settledMem x (hlpmem x hx1).1).1
  have hlenle : (goal :: lp).length ≤ adj.length := nodup_bounded_length hnd hbnd
  have hlplen : lp.length < track.length := by
    rw [inv.len]
    simp only [List.length_cons] at hlenle
    omega
  have hchain : prevChain track (track.length + 1) goal = some (goal :: lp) := by
    unfold prevChain
    rw [show (track.getD goal ⟨0, none⟩).prev = tprev track goal from rfl, hpg]
    show Option.map (fun l => goal :: l) (prevChain track track.length p0) =
      some (goal :: lp)
    rw [hlpf track.length hlplen]
    rfl
  refine ⟨lp, hchain, ?_, ?_, hnd, hbnd, ?_⟩
  · rw [List.reverse_cons, hde]
    refine pathCost_snoc hlppc ?_
    rw [hlplast, ← hen]
    exact he
  · rw [List.reverse_cons]
    simp [List.getLastD_concat]
  · intro hmem
    rcases List.mem_cons.1 hmem with h1 | h1
    · exact hsg h1.symm
    · have := (hlpmem start h1).2.2
      rw [inv.startPrev] at this
      cases this

theorem dijkstraLoop_succ_none {adj : List (List Edge)} {goal f : Nat}
    {track : List Track} {heap : List HState} (hpop : heapPopMax heap = none) :
    dijkstraLoop adj goal (f + 1) track heap = some .unreachable := by
  unfold dijkstraLoop
  rw [hpop]

theorem dijkstraLoop_succ_some {adj : List (List Edge)} {goal f : Nat}
    {track : List Track} {heap : List HState} {st : HState}
    (hpop : heapPopMax heap = some st) :
    dijkstraLoop adj goal (f + 1) track heap =
      if st.position = goal then
        match prevChain track (track.length + 1) goal with
        | none => some DijkstraOutcome.panicked
        | some l =>
          if l.reverse.length > 0 then some (DijkstraOutcome.found l.reverse)
          else some DijkstraOutcome.panicked
      else if st.cost > (track.getD st.position ⟨0, none⟩).dist then
        dijkstraLoop adj goal f track (heap.erase st)
      else
        dijkstraLoop adj goal f
          (relaxEdges st.position st.cost (adj.getD st.position []) track
            (heap.erase st)).1
          (relaxEdges st.position st.cost (adj.getD st.position []) track
            (heap.erase st)).2 := by
  conv_lhs => rw [dijkstraLoop]
  rw [hpop]

end Speedupdate

namespace Speedupdate

theorem walk_end_lt {adj : List (List Edge)} (hwf : AdjWF adj) :
    ∀ {u v c : Nat}, Walk adj u v c → u = v ∨ v < adj.length := by
  intro u v c hwalk
  induction hwalk with
  | nil x => left; rfl
  | cons hedge hsub ih =>
    rcases ih with h | h
    · right
      rename_i u' v' w' ec' c'
      rw [← h]
      exact hwf u' ⟨v', ec'⟩ hedge
    · right; exact h

theorem relax_assemble {adj : List (List Edge)} {start goal : Nat}
    {track : List Track} {heap : List HState} {S : List Nat} {st : HState}
    (inv : DijInv adj start goal track heap S)
    (hwf : AdjWF adj) (hs : start < adj.length)
    (hstmem : st ∈ heap) (hstmin : ∀ e ∈ heap, st.cost ≤ e.cost)
    (hstn : st.position < adj.length) (hstc : st.cost < u64Max)
    (hstp : st.position ≠ start → (tprev track st.position).isSome)
    (hgoal : st.position ≠ goal)
    (hceq : tdist track st.position = st.cost)
    {m0 : Nat} {tr' : List Track} {hp' : List HState}
    (R : RelaxInv adj start st.position st.cost track S m0 tr' hp')
    (hbounds : ∀ e ∈ adj.getD st.position [], tdist tr' e.node ≤ st.cost + e.cost) :
    DijInv adj start goal tr' hp' (S ++ [st.position]) where
  len := R.len.trans inv.len
  distLe := fun v => le_trans (R.mono v) (inv.distLe v)
  startDist := R.startDist
  startPrev := R.startPrev
  achieve := R.achieve
  heapMem := R.heapMem
  settledMin := by
    intro u hu c hwalk
    rcases List.mem_append.1 hu with h1 | h1
    · rw [R.settledDist u h1]
      exact inv.settledMin u h1 c hwalk
    · have hup : u = st.position := by simpa using h1
      subst hup
      rw [R.pDist]
      exact popped_min_walks inv hwf hs hstmem hstmin (le_of_eq hceq) c hwalk
  settledMem := by
    intro u hu
    rcases List.mem_append.1 hu with h1 | h1
    · rcases inv.settledMem u h1 with ⟨ha, hb, hc, hd⟩
      refine ⟨ha, hb, ?_, ?_⟩
      · rw [R.settledDist u h1]; exact hc
      · intro hne
        rw [R.settledPrev u h1]
        exact hd hne
    · have hup : u = st.position := by simpa using h1
      subst hup
      refine ⟨hstn, hgoal, ?_, ?_⟩
      · rw [R.pDist, hceq]
        omega
      · intro hne
        rw [R.pPrev]
        exact hstp hne
  settledRelax := by
    intro u hu e he
    rcases List.mem_append.1 hu with h1 | h1
    · have h2 : tdist tr' e.node ≤ tdist track e.node := R.mono e.node
      have h3 : tdist track e.node ≤ tdist track u + e.cost := inv.settledRelax u h1 e he
      rw [R.settledDist u h1]
      omega
    · have hup : u = st.position := by simpa using h1
      subst hup
      have hb := hbounds e he
      rw [R.pDist, hceq]
      omega
  frontier := by
    intro v hv hvS hvD
    have h1 : v ∉ S := fun h => hvS (List.mem_append_left _ h)
    have h2 : v ≠ st.position := fun h => hvS (List.mem_append_right _ (by simp [h]))
    exact R.frontier v hv h1 h2 hvD
  prevOk := by
    intro v hv q hq
    rcases R.prevOk v hv q hq with ⟨hq1, he⟩
    refine ⟨?_, he⟩
    rcases hq1 with h | h
    · exact List.mem_append_left _ h
    · exact List.mem_append_right _ (by simp [h])
  prevRank := by
    intro i hi q hq
    have hilen : i < S.length + 1 := by
      simpa using hi
    by_cases hiS : i < S.length
    · have h1 : (S ++ [st.position]).get? i = S.get? i := List.get?_append hiS
      have h2 : (S ++ [st.position]).get? i =
          some ((S ++ [st.position]).get ⟨i, hi⟩) := List.get?_eq_get hi
      have h3 : S.get? i = some (S.get ⟨i, hiS⟩) := List.get?_eq_get hiS
      have hgeteq : (S ++ [st.position]).get ⟨i, hi⟩ = S.get ⟨i, hiS⟩ := by
        rw [h2, h3] at h1
        exact Option.some_inj.1 h1
      have hmem : S.get ⟨i, hiS⟩ ∈ S := S.get_mem _ _
      rw [hgeteq] at hq
      rw [R.settledPrev _ hmem] at hq
      rcases inv.prevRank i hiS q hq with ⟨j, hj, hjget⟩
      refine ⟨j, hj, ?_⟩
      rw [List.get?_append (by omega)]
      exact hjget
    · have hieq : i = S.length := by omega
      have hget : (S ++ [st.position]).get? i = some st.position := by
        rw [hieq]
        exact List.get?_concat_length S st.position
      have hgeteq : (S ++ [st.position]).get ⟨i, hi⟩ = st.position := by
        have h2 := List.get?_eq_get hi
        rw [hget] at h2
        exact (Option.some_inj.1 h2).symm
      rw [hgeteq, R.pPrev] at hq
      rcases inv.prevOk st.position hstn q hq with ⟨hqS, _⟩
      rcases List.mem_iff_get?.1 hqS with ⟨j, hjget⟩
      have hjlt : j < S.length := by
        by_contra hge
        push_neg at hge
        rw [List.get?_eq_none.2 hge] at hjget
        cases hjget
      refine ⟨j, by omega, ?_⟩
      rw [List.get?_append hjlt]
      exact hjget

end Speedupdate

namespace Speedupdate

theorem dijkstraLoop_spec {adj : List (List Edge)} {start goal : Nat}
    (hwf : AdjWF adj) (hsg : goal ≠ start) (hs : start < adj.length) :
    ∀ fuel, ∀ track heap S, DijInv adj start goal track heap S →
      trackMeasure track + heap.length < fuel →
      ∃ r, dijkstraLoop adj goal fuel track heap = some r ∧
        r ≠ DijkstraOutcome.panicked ∧
        (∀ path, r = DijkstraOutcome.found path → FoundSpec adj start goal path) ∧
        (r = DijkstraOutcome.unreachable → UnreachSpec adj start goal) := by
  intro fuel
  induction fuel with
  | zero =>
    intro track heap S inv hm
    omega
  | succ f ih =>
    intro track heap S inv hm
    cases hpop : heapPopMax heap with
    | none =>
      refine ⟨.unreachable, dijkstraLoop_succ_none hpop, ?_, ?_, ?_⟩
      · intro h; cases h
      · intro path h; cases h
      · intro _
        have hheap : heap = [] := heapPopMax_none_iff.1 hpop
        intro c hwalk
        by_contra hlt
        push_neg at hlt
        have hgn : goal < adj.length := by
          rcases walk_end_lt hwf hwalk with h | h
          · exact absurd h.symm hsg
          · exact h
        have hgoalS : goal ∉ S := fun hg => (inv.settledMem goal hg).2.1 rfl
        have h0 : tdist track start ≤ 0 := le_of_eq inv.startDist
        have hfr := walk_frontier inv hwf start goal c hwalk 0 hs h0 (by omega)
        rcases hfr with h | ⟨q, hq1, hq2, hq3, _⟩
        · have hne : tdist track goal ≠ u64Max := by omega
          have := inv.frontier goal hgn hgoalS hne
          rw [hheap] at this
          cases this
        · have := inv.frontier q hq1 hq2 hq3
          rw [hheap] at this
          cases this
    | some st =>
      have hstmem : st ∈ heap := heapPopMax_mem hpop
      have hstmin : ∀ e ∈ heap, st.cost ≤ e.cost := heapPopMax_min hpop
      rcases inv.heapMem st hstmem with ⟨hstn, hstd, hstc, hstp⟩
      rw [dijkstraLoop_succ_some hpop]
      by_cases hgoal : st.position = goal
      · rw [if_pos hgoal]
        have hgn : goal < adj.length := hgoal ▸ hstn
        have hprev : (tprev track goal).isSome := by
          have h1 := hstp (by rw [hgoal]; exact hsg)
          rw [hgoal] at h1
          exact h1
        cases hpg : tprev track goal with
        | none =>
          rw [hpg] at hprev
          cases hprev
        | some p0 =>
          rcases prevChain_goal inv hsg hgn hpg with
            ⟨lp, hchain, hpcost, hlast, hnd, hbnd, hstart⟩
          refine ⟨.found (goal :: lp).reverse, ?_, ?_, ?_, ?_⟩
          case _ =>
            rw [hchain]
            show (if (goal :: lp).reverse.length > 0 then
                some (DijkstraOutcome.found (goal :: lp).reverse)
              else some DijkstraOutcome.panicked) =
              some (DijkstraOutcome.found (goal :: lp).reverse)
            rw [if_pos (by simp)]
          · intro h; cases h
          · intro path hfound
            injection hfound with h'
            subst h'
            refine ⟨by simp, hlast, ?_, List.nodup_reverse.2 hnd, ?_, ?_⟩
            · intro hmem
              exact hstart (List.mem_reverse.1 hmem)
            · intro x hx
              exact hbnd x (List.mem_reverse.1 hx)
            · refine ⟨tdist track goal, hpcost, ?_, ?_⟩
              · have h1 : tdist track st.position ≤ st.cost := hstd
                rw [hgoal] at h1
                omega
              · have hmw := popped_min_walks inv hwf hs hstmem hstmin hstd
                intro c hwalk
                have h2 := hmw c (by rw [hgoal]; exact hwalk)
                rw [hgoal] at h2
                exact h2
          · intro h; cases h
      · rw [if_neg hgoal]
        by_cases hstale : st.cost > (track.getD st.position ⟨0, none⟩).dist
        · rw [if_pos hstale]
          have hstale' : tdist track st.position < st.cost := hstale
          have inv' : DijInv adj start goal track (heap.erase st) S :=
            { len := inv.len
              distLe := inv.distLe
              startDist := inv.startDist
              startPrev := inv.startPrev
              achieve := inv.achieve
              heapMem := fun e he => inv.heapMem e (List.mem_of_mem_erase he)
              settledMin := inv.settledMin
              settledMem := inv.settledMem
              settledRelax := inv.settledRelax
              frontier := by
                intro v hv hvS hvD
                have hw := inv.frontier v hv hvS hvD
                have hne : (⟨tdist track v, v⟩ : HState) ≠ st := by
                  intro hcontra
                  rw [← hcontra] at hstale'
                  exact absurd hstale' (lt_irrefl _)
                exact (List.mem_erase_of_ne hne).2 hw
              prevOk := inv.prevOk
              prevRank := inv.prevRank }
          have herase : (heap.erase st).length = heap.length - 1 :=
            List.length_erase_of_mem hstmem
          have hlen1 : 0 < heap.length := List.length_pos_of_mem hstmem
          exact ih track (heap.erase st) S inv' (by omega)
        · rw [if_neg hstale]
          push_neg at hstale
          have hceq : tdist track st.position = st.cost := le_antisymm hstd hstale
          have hcD : st.cost < u64Max := hstc
          have hwalkp : Walk adj start st.position st.cost := by
            have h1 := inv.achieve st.position hstn (by omega)
            rw [hceq] at h1
            exact h1
          have herase : (heap.erase st).length = heap.length - 1 :=
            List.length_erase_of_mem hstmem
          have hlen1 : 0 < heap.length := List.length_pos_of_mem hstmem
          have R0 : RelaxInv adj start st.position st.cost track S
              (trackMeasure track + (heap.erase st).length) track (heap.erase st) :=
            { len := rfl
              mono := fun v => le_refl _
              pDist := rfl
              pPrev := rfl
              startDist := inv.startDist
              startPrev := inv.startPrev
              settledDist := fun u _ => rfl
              settledPrev := fun u _ => rfl
              achieve := inv.achieve
              heapMem := fun e he => inv.heapMem e (List.mem_of_mem_erase he)
              frontier := by
                intro v hv hvS hvp hvD
                have hw := inv.frontier v hv hvS hvD
                have hne : (⟨tdist track v, v⟩ : HState) ≠ st := by
                  intro hcontra
                  apply hvp
                  rw [← hcontra]
                exact (List.mem_erase_of_ne hne).2 hw
              prevOk := by
                intro v hv q hq
                rcases inv.prevOk v hv q hq with ⟨hqS, he⟩
                exact ⟨Or.inl hqS, he⟩
              meas := le_refl _ }
          rcases relax_fold hwf inv.len hceq hcD hwalkp inv.settledMin inv.distLe
              (adj.getD st.position []) (fun _ he => he) track (heap.erase st) R0 with
            ⟨R, hbounds, _⟩
          have hbounds' : ∀ e ∈ adj.getD st.position [],
              tdist (relaxEdges st.position st.cost (adj.getD st.position []) track
                (heap.erase st)).1 e.node ≤ st.cost + e.cost := hbounds
          have inv2 := relax_assemble inv hwf hs hstmem hstmin hstn hstc hstp hgoal
            hceq R hbounds
          have hmeas := R.meas
          have hacc : relaxEdges st.position st.cost (adj.getD st.position []) track
              (heap.erase st) =
              (adj.getD st.position []).foldl
                (fun acc e =>
                  if st.cost + e.cost < (acc.1.getD e.node ⟨0, none⟩).dist then
                    (acc.1.set e.node ⟨st.cost + e.cost, some st.position⟩,
                      ⟨st.cost + e.cost, e.node⟩ :: acc.2)
                  else acc)
                (track, heap.erase st) := rfl
          rw [hacc]
          exact ih _ _ _ inv2 (by omega)

end Speedupdate

namespace Speedupdate

theorem getD_replicate : ∀ (n v : Nat) (t : Track), v < n →
    (List.replicate n t).getD v ⟨0, none⟩ = t
  | 0, v, t, h => by cases h
  | n + 1, 0, t, _ => rfl
  | n + 1, v + 1, t, h => by
    have := getD_replicate n v t (Nat.lt_of_succ_lt_succ h)
    simpa [List.replicate_succ] using this

theorem dijkstraInit_inv {adj : List (List Edge)} {startIdx goalIdx : Nat}
    (hsg : goalIdx ≠ startIdx) (hs : startIdx < adj.length) :
    DijInv adj startIdx goalIdx (dijkstraInit adj.length startIdx)
      [⟨0, startIdx⟩] [] := by
  have hlen : (dijkstraInit adj.length startIdx).length = adj.length := by
    unfold dijkstraInit
    simp
  have hsl : startIdx < (List.replicate adj.length (⟨u64Max, none⟩ : Track)).length := by
    simpa using hs
  have hds : tdist (dijkstraInit adj.length startIdx) startIdx = 0 :=
    tdist_set_self hsl
  have hps : tprev (dijkstraInit adj.length startIdx) startIdx = none :=
    tprev_set_self hsl
  have hdo : ∀ v, v ≠ startIdx → v < adj.length →
      tdist (dijkstraInit adj.length startIdx) v = u64Max := by
    intro v hv hvn
    unfold dijkstraInit
    rw [tdist_set_ne (fun h => hv h.symm)]
    unfold tdist
    rw [getD_replicate adj.length v _ hvn]
  have hpo : ∀ v, v ≠ startIdx → v < adj.length →
      tprev (dijkstraInit adj.length startIdx) v = none := by
    intro v hv hvn
    unfold dijkstraInit
    rw [tprev_set_ne (fun h => hv h.symm)]
    unfold tprev
    rw [getD_replicate adj.length v _ hvn]
  refine
    { len := hlen
      distLe := ?_
      startDist := hds
      startPrev := hps
      achieve := ?_
      heapMem := ?_
      settledMin := fun u hu => absurd hu (List.not_mem_nil u)
      settledMem := fun u hu => absurd hu (List.not_mem_nil u)
      settledRelax := fun u hu => absurd hu (List.not_mem_nil u)
      frontier := ?_
      prevOk := ?_
      prevRank := ?_ }
  · intro v
    by_cases hv : v = startIdx
    · rw [hv, hds]
      omega
    · by_cases hvn : v < adj.length
      · rw [hdo v hv hvn]
      · unfold dijkstraInit tdist
        rw [getD_set_ne _ _ _ _ (fun h => hv h.symm), List.getD_eq_default]
        · exact Nat.zero_le _
        · simpa using Nat.le_of_not_lt hvn
  · intro v hvn hvD
    by_cases hv : v = startIdx
    · rw [hv, hds]
      have hw0 : Walk adj startIdx startIdx 0 := Walk.nil startIdx
      simpa using hw0
    · rw [hdo v hv hvn] at hvD
      exact absurd rfl hvD
  · intro e he
    have he1 : e = ⟨0, startIdx⟩ := by simpa using he
    rw [he1]
    refine ⟨hs, ?_, ?_, ?_⟩
    · rw [hds]
    · show 0 < u64Max
      unfold u64Max
      norm_num
    · intro hne
      exact absurd rfl hne
  · intro v hvn hvS hvD
    by_cases hv : v = startIdx
    · rw [hv, hds]
      simp
    · rw [hdo v hv hvn] at hvD
      exact absurd rfl hvD
  · intro v hvn p hp
    by_cases hv : v = startIdx
    · rw [hv, hps] at hp
      cases hp
    · rw [hpo v hv hvn] at hp
      cases hp
  · intro i hi
    simp at hi

theorem dijkstra_spec {adj : List (List Edge)} {startIdx goalIdx : Nat}
    (hwf : AdjWF adj) (hsg : goalIdx ≠ startIdx) (hs : startIdx < adj.length) :
    ∃ r, dijkstra adj startIdx goalIdx = some r ∧
      r ≠ DijkstraOutcome.panicked ∧
      (∀ path, r = DijkstraOutcome.found path → FoundSpec adj startIdx goalIdx path) ∧
      (r = DijkstraOutcome.unreachable → UnreachSpec adj startIdx goalIdx) := by
  have inv0 : DijInv adj startIdx goalIdx (dijkstraInit adj.length startIdx)
      [⟨0, startIdx⟩] [] := dijkstraInit_inv hsg hs
  have hrun := dijkstraLoop_spec hwf hsg hs
    (trackMeasure (dijkstraInit adj.length startIdx) + 1 + 1)
    (dijkstraInit adj.length startIdx) [⟨0, startIdx⟩] [] inv0 (by simp)
  exact hrun

end Speedupdate

namespace Speedupdate

theorem getD_set_eq {α : Type} (d : α) :
    ∀ (l : List α) (i : Nat) (t : α), i < l.length → (l.set i t).getD i d = t
  | [], i, t, h => by cases h
  | a :: l, 0, t, _ => rfl
  | a :: l, i + 1, t, h => by
    simpa using getD_set_eq d l i t (Nat.lt_of_succ_lt_succ h)

theorem getD_set_neq {α : Type} (d : α) :
    ∀ (l : List α) (i j : Nat) (t : α), i ≠ j → (l.set i t).getD j d = l.getD j d
  | [], _, _, _, _ => by simp
  | a :: l, 0, 0, t, h => absurd rfl h
  | a :: l, 0, j + 1, t, _ => by simp [List.getD]
  | a :: l, i + 1, 0, t, _ => by simp [List.getD]
  | a :: l, i + 1, j + 1, t, h => by
    have := getD_set_neq d l i j t (by omega)
    simpa using this

theorem lookupIdx_getD : ∀ {names : List (Option String)} {x : Option String} {i : Nat},
    lookupIdx names x = some i → names.getD i none = x ∧ i < names.length := by
  intro names
  induction names with
  | nil => intro x i h; cases h
  | cons y ys ih =>
    intro x i h
    unfold lookupIdx at h
    by_cases hy : y = x
    · rw [if_pos hy] at h
      have : i = 0 := (Option.some_inj.1 h).symm
      subst this
      exact ⟨hy, by simp⟩
    · rw [if_neg hy] at h
      cases hl : lookupIdx ys x with
      | none =>
        rw [hl] at h
        cases h
      | some j =>
        rw [hl] at h
        have hij : i = j + 1 := (Option.some_inj.1 h).symm
        subst hij
        rcases ih hl with ⟨h1, h2⟩
        refine ⟨by simpa using h1, by simp; omega⟩

theorem lookupIdx_append_some :
    ∀ {names : List (Option String)} {x : Option String} {i : Nat},
      lookupIdx names x = some i → ∀ ys, lookupIdx (names ++ ys) x = some i := by
  intro names
  induction names with
  | nil => intro x i h; cases h
  | cons y ys' ih =>
    intro x i h zs
    rw [List.cons_append]
    unfold lookupIdx at h ⊢
    by_cases hy : y = x
    · rw [if_pos hy] at h ⊢
      exact h
    · rw [if_neg hy] at h ⊢
      cases hl : lookupIdx ys' x with
      | none =>
        rw [hl] at h
        cases h
      | some j =>
        rw [hl] at h
        rw [ih hl zs]
        exact h

theorem lookupIdx_append_new :
    ∀ {names : List (Option String)} {x : Option String},
      lookupIdx names x = none → lookupIdx (names ++ [x]) x = some names.length := by
  intro names
  induction names with
  | nil =>
    intro x _
    rw [List.nil_append]
    unfold lookupIdx
    rw [if_pos rfl]
    rfl
  | cons y ys ih =>
    intro x h
    rw [List.cons_append]
    unfold lookupIdx at h ⊢
    by_cases hy : y = x
    · rw [if_pos hy] at h
      cases h
    · rw [if_neg hy] at h ⊢
      cases hl : lookupIdx ys x with
      | none =>
        rw [ih hl]
        simp
      | some j =>
        rw [hl] at h
        cases h

theorem getD_append_nil_edge : ∀ (nodes : List (List Edge)) (u : Nat),
    (nodes ++ [[]]).getD u [] = nodes.getD u []
  | [], 0 => rfl
  | [], _ + 1 => by simp [List.getD]
  | x :: xs, 0 => rfl
  | x :: xs, u + 1 => by simpa using getD_append_nil_edge xs u

theorem getNodeIdx_spec (nodes : List (List Edge)) (names : List (Option String))
    (nm : Option String) (hlen : nodes.length = names.length) :
    (getNodeIdx nodes names nm).1.length = (getNodeIdx nodes names nm).2.1.length ∧
    names.length ≤ (getNodeIdx nodes names nm).2.1.length ∧
    lookupIdx (getNodeIdx nodes names nm).2.1 nm = some (getNodeIdx nodes names nm).2.2 ∧
    (∀ y j, lookupIdx names y = some j →
      lookupIdx (getNodeIdx nodes names nm).2.1 y = some j) ∧
    (∀ u, (getNodeIdx nodes names nm).1.getD u [] = nodes.getD u []) := by
  unfold getNodeIdx
  cases hl : lookupIdx names nm with
  | some i =>
    refine ⟨hlen, le_refl _, hl, fun y j h => h, fun u => rfl⟩
  | none =>
    refine ⟨?_, ?_, ?_, ?_, ?_⟩
    · simp [hlen]
    · simp
    · simpa [hlen] using lookupIdx_append_new hl
    · intro y j h
      exact lookupIdx_append_some h [nm]
    · intro u
      exact getD_append_nil_edge nodes u

theorem addEdge_getD_self {nodes : List (List Edge)} {i : Nat}
    (hi : i < nodes.length) (e : Edge) :
    (addEdge nodes i e).getD i [] = nodes.getD i [] ++ [e] := by
  unfold addEdge
  exact getD_set_eq [] nodes i _ hi

theorem addEdge_getD_ne {nodes : List (List Edge)} {i j : Nat}
    (h : i ≠ j) (e : Edge) :
    (addEdge nodes i e).getD j [] = nodes.getD j [] := by
  unfold addEdge
  exact getD_set_neq [] nodes i j _ h

theorem addEdge_length {nodes : List (List Edge)} {i : Nat} {e : Edge} :
    (addEdge nodes i e).length = nodes.length := by
  unfold addEdge
  exact List.length_set nodes i _

/-- The invariant of the planner's graph construction: names/indices of
the three distinguished nodes, the zero-cost switch edge, the edge of
every processed package, and the converse characterization of all
edges. -/
structure GraphInv (start : Option String) (goal : String) (eIdx sIdx gIdx : Nat)
    (done : List Package) (nodes : List (List Edge))
    (names : List (Option String)) : Prop where
  len : nodes.length = names.length
  lookE : lookupIdx names none = some eIdx
  lookS : lookupIdx names start = some sIdx
  lookG : lookupIdx names (some goal) = some gIdx
  zeroEdge : eIdx ≠ sIdx → (⟨eIdx, 0⟩ : Edge) ∈ nodes.getD sIdx []
  pkgEdge : ∀ pk ∈ done, ∃ u v, lookupIdx names pk.from? = some u ∧
    lookupIdx names (some pk.to') = some v ∧ (⟨v, pk.size⟩ : Edge) ∈ nodes.getD u []
  inversion : ∀ u, ∀ e ∈ nodes.getD u [],
    (u = sIdx ∧ e = ⟨eIdx, 0⟩ ∧ eIdx ≠ sIdx) ∨
    ∃ pk ∈ done, lookupIdx names pk.from? = some u ∧
      lookupIdx names (some pk.to') = some e.node ∧ e.cost = pk.size

/-- One step of the package fold of `metadata::shortest_path`'s graph
construction (metadata/mod.rs 500-509). -/
def buildStep (acc : List (List Edge) × List (Option String)) (p : Package) :
    List (List Edge) × List (Option String) :=
  let sa := getNodeIdx acc.1 acc.2 p.from?
  let sb := getNodeIdx sa.1 sa.2.1 (some p.to')
  (addEdge sb.1 sa.2.2 ⟨sb.2.2, p.size⟩, sb.2.1)

end Speedupdate

namespace Speedupdate

theorem buildStep_inv {start : Option String} {goal : String} {eIdx sIdx gIdx : Nat}
    {done : List Package} {nodes : List (List Edge)} {names : List (Option String)}
    (p : Package) (inv : GraphInv start goal eIdx sIdx gIdx done nodes names) :
    GraphInv start goal eIdx sIdx gIdx (done ++ [p])
      (buildStep (nodes, names) p).1 (buildStep (nodes, names) p).2 := by
  rcases getNodeIdx_spec nodes names p.from? inv.len with ⟨ha1, ha2, ha3, ha4, ha5⟩
  rcases getNodeIdx_spec (getNodeIdx nodes names p.from?).1
      (getNodeIdx nodes names p.from?).2.1 (some p.to') ha1 with
    ⟨hb1, hb2, hb3, hb4, hb5⟩
  have hu : (getNodeIdx nodes names p.from?).2.2 <
      (getNodeIdx (getNodeIdx nodes names p.from?).1
        (getNodeIdx nodes names p.from?).2.1 (some p.to')).1.length := by
    have h1 := (lookupIdx_getD ha3).2
    rw [hb1]
    omega
  have hgd : ∀ u, (buildStep (nodes, names) p).1.getD u [] =
      nodes.getD u [] ++
        (if u = (getNodeIdx nodes names p.from?).2.2 then
          [(⟨(getNodeIdx (getNodeIdx nodes names p.from?).1
              (getNodeIdx nodes names p.from?).2.1 (some p.to')).2.2, p.size⟩ : Edge)]
        else []) := by
    intro u
    by_cases hue : u = (getNodeIdx nodes names p.from?).2.2
    · rw [if_pos hue]
      show (addEdge _ _ _).getD u [] = _
      rw [hue, addEdge_getD_self hu, hb5, ha5]
    · rw [if_neg hue]
      show (addEdge _ _ _).getD u [] = _
      rw [addEdge_getD_ne (fun h => hue h.symm), hb5, ha5, List.append_nil]
  refine
    { len := ?_
      lookE := hb4 _ _ (ha4 _ _ inv.lookE)
      lookS := hb4 _ _ (ha4 _ _ inv.lookS)
      lookG := hb4 _ _ (ha4 _ _ inv.lookG)
      zeroEdge := ?_
      pkgEdge := ?_
      inversion := ?_ }
  · show (addEdge _ _ _).length = _
    rw [addEdge_length, hb1]
    rfl
  · intro hne
    have h1 := inv.zeroEdge hne
    rw [hgd sIdx]
    exact List.mem_append_left _ h1
  · intro pk hpk
    rcases List.mem_append.1 hpk with h1 | h1
    · rcases inv.pkgEdge pk h1 with ⟨u, v, hlu, hlv, hm⟩
      refine ⟨u, v, hb4 _ _ (ha4 _ _ hlu), hb4 _ _ (ha4 _ _ hlv), ?_⟩
      rw [hgd u]
      exact List.mem_append_left _ hm
    · have hpk1 : pk = p := by simpa using h1
      subst hpk1
      refine ⟨(getNodeIdx nodes names pk.from?).2.2,
        (getNodeIdx (getNodeIdx nodes names pk.from?).1
          (getNodeIdx nodes names pk.from?).2.1 (some pk.to')).2.2,
        hb4 _ _ ha3, hb3, ?_⟩
      rw [hgd _]
      rw [if_pos rfl]
      exact List.mem_append_right _ (by simp)
  · intro u e he
    rw [hgd u] at he
    rcases List.mem_append.1 he with h1 | h1
    · rcases inv.inversion u e h1 with h2 | ⟨pk, hpk, hlu, hlv, hc⟩
      · exact Or.inl h2
      · exact Or.inr ⟨pk, List.mem_append_left _ hpk,
          hb4 _ _ (ha4 _ _ hlu), hb4 _ _ (ha4 _ _ hlv), hc⟩
    · by_cases hue : u = (getNodeIdx nodes names p.from?).2.2
      · rw [if_pos hue] at h1
        have he1 : e = ⟨(getNodeIdx (getNodeIdx nodes names p.from?).1
            (getNodeIdx nodes names p.from?).2.1 (some p.to')).2.2, p.size⟩ := by
          simpa using h1
        refine Or.inr ⟨p, List.mem_append_right _ (by simp), ?_, ?_, ?_⟩
        · rw [hue]
          exact hb4 _ _ ha3
        · rw [he1]
          exact hb3
        · rw [he1]
      · rw [if_neg hue] at h1
        cases h1

theorem buildFold_inv {start : Option String} {goal : String} {eIdx sIdx gIdx : Nat} :
    ∀ (ps : List Package) (acc : List (List Edge) × List (Option String))
      (done : List Package),
      GraphInv start goal eIdx sIdx gIdx done acc.1 acc.2 →
      GraphInv start goal eIdx sIdx gIdx (done ++ ps)
        (ps.foldl buildStep acc).1 (ps.foldl buildStep acc).2 := by
  intro ps
  induction ps with
  | nil =>
    intro acc done inv
    simpa using inv
  | cons p ps' ih =>
    intro acc done inv
    obtain ⟨nodes, names⟩ := acc
    have h1 := buildStep_inv p inv
    have h2 := ih (buildStep (nodes, names) p) (done ++ [p]) h1
    rw [List.foldl_cons]
    have hd : done ++ [p] ++ ps' = done ++ p :: ps' := by simp
    rw [hd] at h2
    exact h2

end Speedupdate

namespace Speedupdate

theorem buildGraph_inv (start : Option String) (goal : String)
    (packages : List Package) :
    GraphInv start goal (buildGraph start goal packages).2.2.1
      (buildGraph start goal packages).2.2.2.1
      (buildGraph start goal packages).2.2.2.2 packages
      (buildGraph start goal packages).1 (buildGraph start goal packages).2.1 := by
  rcases getNodeIdx_spec [[]] [none] start rfl with ⟨ha1, ha2, ha3, ha4, ha5⟩
  rcases getNodeIdx_spec (getNodeIdx [[]] [none] start).1
      (getNodeIdx [[]] [none] start).2.1 (some goal) ha1 with ⟨hb1, hb2, hb3, hb4, hb5⟩
  have hl0 : lookupIdx [none] none = some 0 := rfl
  have lookE3 : lookupIdx (getNodeIdx (getNodeIdx [[]] [none] start).1
      (getNodeIdx [[]] [none] start).2.1 (some goal)).2.1 none = some 0 :=
    hb4 _ _ (ha4 _ _ hl0)
  have lookS3 : lookupIdx (getNodeIdx (getNodeIdx [[]] [none] start).1
      (getNodeIdx [[]] [none] start).2.1 (some goal)).2.1 start =
      some (getNodeIdx [[]] [none] start).2.2 :=
    hb4 _ _ ha3
  have edges3 : ∀ u, (getNodeIdx (getNodeIdx [[]] [none] start).1
      (getNodeIdx [[]] [none] start).2.1 (some goal)).1.getD u [] = [] := by
    intro u
    rw [hb5, ha5]
    cases u with
    | zero => rfl
    | succ u' => rfl
  have hsIdxlt : (getNodeIdx [[]] [none] start).2.2 <
      (getNodeIdx (getNodeIdx [[]] [none] start).1
        (getNodeIdx [[]] [none] start).2.1 (some goal)).1.length := by
    have h1 := (lookupIdx_getD ha3).2
    rw [hb1]
    omega
  have hbase : GraphInv start goal 0 (getNodeIdx [[]] [none] start).2.2
      (getNodeIdx (getNodeIdx [[]] [none] start).1
        (getNodeIdx [[]] [none] start).2.1 (some goal)).2.2 []
      (if (0 : Nat) ≠ (getNodeIdx [[]] [none] start).2.2 then
        addEdge (getNodeIdx (getNodeIdx [[]] [none] start).1
            (getNodeIdx [[]] [none] start).2.1 (some goal)).1
          (getNodeIdx [[]] [none] start).2.2 ⟨0, 0⟩
      else (getNodeIdx (getNodeIdx [[]] [none] start).1
        (getNodeIdx [[]] [none] start).2.1 (some goal)).1)
      (getNodeIdx (getNodeIdx [[]] [none] start).1
        (getNodeIdx [[]] [none] start).2.1 (some goal)).2.1 := by
    by_cases hz : (0 : Nat) ≠ (getNodeIdx [[]] [none] start).2.2
    · rw [if_pos hz]
      refine
        { len := ?_
          lookE := lookE3
          lookS := lookS3
          lookG := hb3
          zeroEdge := ?_
          pkgEdge := ?_
          inversion := ?_ }
      · rw [addEdge_length]
        exact hb1
      · intro _
        rw [addEdge_getD_self hsIdxlt, edges3]
        simp
      · intro pk hpk
        cases hpk
      · intro u e he
        by_cases hue : (getNodeIdx [[]] [none] start).2.2 = u
        · rw [← hue, addEdge_getD_self hsIdxlt, edges3] at he
          have he1 : e = ⟨0, 0⟩ := by simpa using he
          exact Or.inl ⟨hue.symm, he1, hz⟩
        · rw [addEdge_getD_ne hue, edges3] at he
          cases he
    · rw [if_neg hz]
      refine
        { len := hb1
          lookE := lookE3
          lookS := lookS3
          lookG := hb3
          zeroEdge := ?_
          pkgEdge := ?_
          inversion := ?_ }
      · intro hne
        exact absurd hne hz
      · intro pk hpk
        cases hpk
      · intro u e he
        rw [edges3] at he
        cases he
  have hres := buildFold_inv packages
    ((if (0 : Nat) ≠ (getNodeIdx [[]] [none] start).2.2 then
        addEdge (getNodeIdx (getNodeIdx [[]] [none] start).1
            (getNodeIdx [[]] [none] start).2.1 (some goal)).1
          (getNodeIdx [[]] [none] start).2.2 ⟨0, 0⟩
      else (getNodeIdx (getNodeIdx [[]] [none] start).1
        (getNodeIdx [[]] [none] start).2.1 (some goal)).1),
      (getNodeIdx (getNodeIdx [[]] [none] start).1
        (getNodeIdx [[]] [none] start).2.1 (some goal)).2.1)
    [] hbase
  have hnil : ([] : List Package) ++ packages = packages := by simp
  rw [hnil] at hres
  exact hres

end Speedupdate

namespace Speedupdate

/-- Modelled from the spec: one chain step from revision `cur` — the next
package applies from `cur` itself, or from no version at all via the free
switch available at the starting revision. -/
def chainStepOk (start cur : Option String) (p : Package) : Bool :=
  decide (p.from? = cur) || (decide (p.from? = none) && decide (cur = start))

/-- Modelled from the spec: successive chain steps are valid from `cur`. -/
def chainOkFrom (start : Option String) : Option String → List Package → Bool
  | _, [] => true
  | cur, p :: ps => chainStepOk start cur p && chainOkFrom start (some p.to') ps

/-- The revision reached after applying `ps` from `cur`. -/
def stateAfter : Option String → List Package → Option String
  | cur, [] => cur
  | _, p :: ps => stateAfter (some p.to') ps

/-- Total download size of a package chain. -/
def chainSize (ps : List Package) : Nat := (ps.map Package.size).sum

/-- Modelled from the spec: `ps` is a chain of `packages` leading from
the `start` revision to the `goal` revision. -/
def isChain (start : Option String) (goal : String) (packages ps : List Package) : Prop :=
  ps ≠ [] ∧ (∀ p ∈ ps, p ∈ packages) ∧ chainOkFrom start start ps = true ∧
    stateAfter start ps = some goal

theorem graphInv_wf {start : Option String} {goal : String} {eIdx sIdx gIdx : Nat}
    {done : List Package} {nodes : List (List Edge)} {names : List (Option String)}
    (inv : GraphInv start goal eIdx sIdx gIdx done nodes names) : AdjWF nodes := by
  intro i e he
  rcases inv.inversion i e he with ⟨_, he2, _⟩ | ⟨pk, _, _, hv, _⟩
  · rw [he2]
    show eIdx < nodes.length
    rw [inv.len]
    exact (lookupIdx_getD inv.lookE).2
  · rw [inv.len]
    exact (lookupIdx_getD hv).2

theorem graphInv_sIdx_lt {start : Option String} {goal : String} {eIdx sIdx gIdx : Nat}
    {done : List Package} {nodes : List (List Edge)} {names : List (Option String)}
    (inv : GraphInv start goal eIdx sIdx gIdx done nodes names) :
    sIdx < nodes.length := by
  rw [inv.len]
  exact (lookupIdx_getD inv.lookS).2

theorem graphInv_gs {start : Option String} {goal : String} {eIdx sIdx gIdx : Nat}
    {done : List Package} {nodes : List (List Edge)} {names : List (Option String)}
    (inv : GraphInv start goal eIdx sIdx gIdx done nodes names)
    (hsg : start ≠ some goal) : gIdx ≠ sIdx := by
  intro h
  have h1 := (lookupIdx_getD inv.lookG).1
  have h2 := (lookupIdx_getD inv.lookS).1
  rw [h] at h1
  rw [h2] at h1
  exact hsg h1

theorem graphInv_ge {start : Option String} {goal : String} {eIdx sIdx gIdx : Nat}
    {done : List Package} {nodes : List (List Edge)} {names : List (Option String)}
    (inv : GraphInv start goal eIdx sIdx gIdx done nodes names) : gIdx ≠ eIdx := by
  intro h
  have h1 := (lookupIdx_getD inv.lookG).1
  have h2 := (lookupIdx_getD inv.lookE).1
  rw [h] at h1
  rw [h2] at h1
  cases h1

theorem chain_walk {start : Option String} {goal : String} {eIdx sIdx gIdx : Nat}
    {packages : List Package} {nodes : List (List Edge)} {names : List (Option String)}
    (inv : GraphInv start goal eIdx sIdx gIdx packages nodes names) :
    ∀ (qs : List Package) (cur : Option String) (u : Nat),
      lookupIdx names cur = some u →
      (∀ q ∈ qs, q ∈ packages) →
      chainOkFrom start cur qs = true →
      ∃ v, lookupIdx names (stateAfter cur qs) = some v ∧
        Walk nodes u v (chainSize qs) := by
  intro qs
  induction qs with
  | nil =>
    intro cur u hlu _ _
    exact ⟨u, hlu, Walk.nil u⟩
  | cons q qs' ih =>
    intro cur u hlu hmem hok
    have hok1 : chainStepOk start cur q = true ∧
        chainOkFrom start (some q.to') qs' = true := by
      simpa [chainOkFrom] using hok
    rcases hok1 with ⟨hstep, hok'⟩
    have hqpk : q ∈ packages := hmem q (List.mem_cons_self _ _)
    rcases inv.pkgEdge q hqpk with ⟨u', v', hlu', hlv', hedge⟩
    by_cases hfrom : q.from? = cur
    · have huu : u' = u := by
        rw [hfrom] at hlu'
        exact Option.some_inj.1 (hlu'.symm.trans hlu)
      subst huu
      rcases ih (some q.to') v' hlv'
          (fun x hx => hmem x (List.mem_cons_of_mem _ hx)) hok' with ⟨v, hv, hwalk⟩
      refine ⟨v, hv, ?_⟩
      have hw := Walk.cons hedge hwalk
      simpa [chainSize] using hw
    · have hcond : q.from? = none ∧ cur = start := by
        unfold chainStepOk at hstep
        simp only [Bool.or_eq_true, Bool.and_eq_true, decide_eq_true_eq] at hstep
        rcases hstep with h | h
        · exact absurd h hfrom
        · exact h
      rcases hcond with ⟨hfn, hcs⟩
      have hcurne : cur ≠ none := by
        intro h
        exact hfrom (by rw [hfn, h])
      have hstartne : start ≠ none := by
        rw [← hcs]
        exact hcurne
      have hes : eIdx ≠ sIdx := by
        intro h
        have h1 := (lookupIdx_getD inv.lookE).1
        have h2 := (lookupIdx_getD inv.lookS).1
        rw [h] at h1
        rw [h2] at h1
        exact hstartne h1
      have husIdx : u = sIdx := by
        rw [hcs] at hlu
        exact Option.some_inj.1 (hlu.symm.trans inv.lookS)
      have huE : u' = eIdx := by
        rw [hfn] at hlu'
        exact Option.some_inj.1 (hlu'.symm.trans inv.lookE)
      have hzero := inv.zeroEdge hes
      rcases ih (some q.to') v' hlv'
          (fun x hx => hmem x (List.mem_cons_of_mem _ hx)) hok' with ⟨v, hv, hwalk⟩
      refine ⟨v, hv, ?_⟩
      rw [huE] at hedge
      have hw1 : Walk nodes eIdx v (q.size + chainSize qs') := Walk.cons hedge hwalk
      have hw2 : Walk nodes sIdx v (0 + (q.size + chainSize qs')) := Walk.cons hzero hw1
      rw [husIdx]
      simpa [chainSize] using hw2

end Speedupdate

namespace Speedupdate

theorem package_pair_unique {packages : List Package}
    (hdistinct : packages.Pairwise fun a b => (a.from?, a.to') ≠ (b.from?, b.to')) :
    ∀ pk ∈ packages, ∀ pk' ∈ packages,
      pk.from? = pk'.from? → pk.to' = pk'.to' → pk = pk' := by
  intro pk hpk pk' hpk' h1 h2
  rcases pairwise_mem_rel hdistinct hpk hpk' with h | h | h
  · exact h
  · exact absurd (by rw [h1, h2]) h
  · exact absurd (by rw [h1, h2]) h

theorem find?_eq_some_of_mem (p : Package → Bool) :
    ∀ {l : List Package} {a : Package}, a ∈ l → p a = true →
      ∃ b, l.find? p = some b := by
  intro l
  induction l with
  | nil => intro a h; cases h
  | cons x xs ih =>
    intro a ha hpa
    by_cases hx : p x = true
    · exact ⟨x, List.find?_cons_of_pos _ hx⟩
    · rcases List.mem_cons.1 ha with h1 | h1
      · rw [h1] at hpa
        exact absurd hpa hx
      · rcases ih h1 hpa with ⟨b, hb⟩
        refine ⟨b, ?_⟩
        rw [List.find?_cons_of_neg _ (by simpa using hx), hb]

theorem collect_find {packages : List Package}
    (hdistinct : packages.Pairwise fun a b => (a.from?, a.to') ≠ (b.from?, b.to'))
    {pk : Package} (hpk : pk ∈ packages) {cur toName : Option String}
    (hfrom : pk.from? = cur) (hto : some pk.to' = toName) :
    packages.find? (fun k => decide (k.from? = cur ∧ some k.to' = toName)) = some pk := by
  have hsat : (fun k => decide (k.from? = cur ∧ some k.to' = toName)) pk = true := by
    simp [hfrom, hto]
  rcases find?_eq_some_of_mem
      (fun k => decide (k.from? = cur ∧ some k.to' = toName)) hpk hsat with ⟨b, hb⟩
  have hbsat := List.find?_some hb
  have hbmem := List.mem_of_find?_eq_some hb
  simp only [decide_eq_true_eq] at hbsat
  rcases hbsat with ⟨hb1, hb2⟩
  have h1 : b.from? = pk.from? := by rw [hb1, hfrom]
  have h2 : b.to' = pk.to' := by
    have h3 := hb2.trans hto.symm
    exact Option.some_inj.1 h3
  have h4 := package_pair_unique hdistinct b hbmem pk hpk h1 h2
  rw [hb, h4]

theorem path_avoids_empty {start : Option String} {goal : String}
    {eIdx sIdx gIdx : Nat} {packages : List Package}
    {nodes : List (List Edge)} {names : List (Option String)}
    (inv : GraphInv start goal eIdx sIdx gIdx packages nodes names) :
    ∀ (seg : List Nat) (u d : Nat), PathCost nodes u seg d →
      (u = sIdx → seg.head? ≠ some eIdx) →
      (∀ x ∈ seg, x ≠ sIdx) →
      eIdx ∉ seg := by
  intro seg
  induction seg with
  | nil =>
    intro u d _ _ _
    simp
  | cons v rest ih =>
    intro u d hpc hhead hseg
    cases hpc with
    | cons hedge hsub =>
      intro hmem
      rcases List.mem_cons.1 hmem with h1 | h1
      · by_cases hu : u = sIdx
        · exact (hhead hu) (by rw [← h1]; simp)
        · rcases inv.inversion u _ hedge with ⟨h2, _, _⟩ | ⟨pk, _, _, hlv, _⟩
          · exact hu h2
          · have h3 := (lookupIdx_getD hlv).1
            have h4 := (lookupIdx_getD inv.lookE).1
            rw [show ((⟨v, _⟩ : Edge)).node = v from rfl] at h3
            rw [← h1, h4] at h3
            cases h3
      · have hvne : v ≠ sIdx := hseg v (List.mem_cons_self _ _)
        exact ih v _ hsub (fun h => absurd h hvne)
          (fun x hx => hseg x (List.mem_cons_of_mem _ hx)) h1

theorem collect_spec {start : Option String} {goal : String} {eIdx sIdx gIdx : Nat}
    {packages : List Package} {nodes : List (List Edge)} {names : List (Option String)}
    (inv : GraphInv start goal eIdx sIdx gIdx packages nodes names)
    (hdistinct : packages.Pairwise fun a b => (a.from?, a.to') ≠ (b.from?, b.to')) :
    ∀ (seg : List Nat) (u d : Nat),
      PathCost nodes u seg d →
      (∀ x ∈ seg, x ≠ eIdx) → (∀ x ∈ seg, x ≠ sIdx) →
      chainOkFrom start (names.getD u none)
        (collectChain names packages (names.getD u none) seg) = true ∧
      stateAfter (names.getD u none)
        (collectChain names packages (names.getD u none) seg) =
        names.getD (seg.getLastD u) none ∧
      chainSize (collectChain names packages (names.getD u none) seg) = d ∧
      (∀ k ∈ collectChain names packages (names.getD u none) seg, k ∈ packages) ∧
      (seg ≠ [] → collectChain names packages (names.getD u none) seg ≠ []) := by
  intro seg
  induction seg with
  | nil =>
    intro u d hpc _ _
    cases hpc
    refine ⟨rfl, rfl, rfl, ?_, ?_⟩
    · intro k hk
      cases hk
    · intro h
      exact absurd rfl h
  | cons v rest ih =>
    intro u d hpc hne hns
    cases hpc with
    | cons hedge hsub =>
      rename_i ec c
      rcases inv.inversion u _ hedge with ⟨h2, he2, _⟩ | ⟨pk, hpk, hlu, hlv, hc⟩
      · have h3 : v = eIdx := congrArg Edge.node he2
        exact absurd h3 (hne v (List.mem_cons_self _ _))
      · have hcur : names.getD u none = pk.from? := (lookupIdx_getD hlu).1
        have htoN : names.getD v none = some pk.to' := by
          have h3 := (lookupIdx_getD hlv).1
          exact h3
        have hfind := collect_find hdistinct hpk hcur.symm htoN.symm
        have hcc : collectChain names packages (names.getD u none) (v :: rest) =
            pk :: collectChain names packages (names.getD v none) rest := by
          show (match packages.find? (fun k => decide (k.from? = names.getD u none ∧
              some k.to' = names.getD v none)) with
            | some k => k :: collectChain names packages (names.getD v none) rest
            | none => collectChain names packages (names.getD v none) rest) =
            pk :: collectChain names packages (names.getD v none) rest
          rw [hfind]
        rcases ih v c hsub (fun x hx => hne x (List.mem_cons_of_mem _ hx))
            (fun x hx => hns x (List.mem_cons_of_mem _ hx)) with
          ⟨ihok, ihstate, ihsize, ihmem, _⟩
        rw [hcc]
        have hc' : ec = pk.size := hc
        refine ⟨?_, ?_, ?_, ?_, ?_⟩
        · show (chainStepOk start (names.getD u none) pk &&
            chainOkFrom start (some pk.to')
              (collectChain names packages (names.getD v none) rest)) = true
          rw [← htoN, Bool.and_eq_true]
          refine ⟨?_, ihok⟩
          unfold chainStepOk
          rw [hcur]
          simp
        · show stateAfter (some pk.to')
              (collectChain names packages (names.getD v none) rest) =
            names.getD ((v :: rest).getLastD u) none
          rw [← htoN, ihstate, List.getLastD_cons]
        · show chainSize (pk :: collectChain names packages (names.getD v none) rest) =
            ec + c
          simp only [chainSize, List.map_cons, List.sum_cons]
          simp only [chainSize] at ihsize
          omega
        · intro k hk
          rcases List.mem_cons.1 hk with h1 | h1
          · rw [h1]
            exact hpk
          · exact ihmem k h1
        · intro _
          exact List.cons_ne_nil _ _

end Speedupdate

namespace Speedupdate

theorem stateAfter_append : ∀ (xs ys : List Package) (cur : Option String),
    stateAfter cur (xs ++ ys) = stateAfter (stateAfter cur xs) ys := by
  intro xs
  induction xs with
  | nil =>
    intro ys cur
    rfl
  | cons x xs' ih =>
    intro ys cur
    rw [List.cons_append]
    show stateAfter (some x.to') (xs' ++ ys) = stateAfter (stateAfter (some x.to') xs') ys
    exact ih ys (some x.to')

theorem chainOkFrom_append : ∀ (xs ys : List Package) (start cur : Option String),
    chainOkFrom start cur (xs ++ ys) =
      (chainOkFrom start cur xs && chainOkFrom start (stateAfter cur xs) ys) := by
  intro xs
  induction xs with
  | nil =>
    intro ys start cur
    show chainOkFrom start cur ys = (true && chainOkFrom start cur ys)
    rw [Bool.true_and]
  | cons x xs' ih =>
    intro ys start cur
    rw [List.cons_append]
    show (chainStepOk start cur x && chainOkFrom start (some x.to') (xs' ++ ys)) =
      ((chainStepOk start cur x && chainOkFrom start (some x.to') xs') &&
        chainOkFrom start (stateAfter (some x.to') xs') ys)
    rw [ih, Bool.and_assoc]

theorem chainSize_sublist {l1 l2 : List Package} (h : l1.Sublist l2) :
    chainSize l1 ≤ chainSize l2 :=
  sublist_sum_le (h.map Package.size)

theorem chain_reduce {start : Option String} :
    ∀ (qs : List Package) (cur : Option String),
      chainOkFrom start cur qs = true →
      ∃ qs', qs'.Nodup ∧ (∀ q ∈ qs', q ∈ qs) ∧
        chainOkFrom start cur qs' = true ∧
        stateAfter cur qs' = stateAfter cur qs ∧
        chainSize qs' ≤ chainSize qs := by
  intro qs
  induction qs with
  | nil =>
    intro cur _
    exact ⟨[], List.nodup_nil, by simp, rfl, rfl, le_refl _⟩
  | cons q rest ih =>
    intro cur hok
    have hok1 : chainStepOk start cur q = true ∧
        chainOkFrom start (some q.to') rest = true := by
      simpa [chainOkFrom] using hok
    rcases ih (some q.to') hok1.2 with ⟨rest', hnd, hsub, hok', hstate, hsize⟩
    by_cases hq : q ∈ rest'
    · rcases List.append_of_mem hq with ⟨b, c, hbc⟩
      subst hbc
      have hoksplit := hok'
      rw [chainOkFrom_append] at hoksplit
      rw [Bool.and_eq_true] at hoksplit
      rcases hoksplit with ⟨hokb, hokqc⟩
      have hokqc' : chainStepOk start (stateAfter (some q.to') b) q = true ∧
          chainOkFrom start (some q.to') c = true := by
        simpa [chainOkFrom] using hokqc
      refine ⟨q :: c, ?_, ?_, ?_, ?_, ?_⟩
      · have hsl : (q :: c).Sublist (b ++ q :: c) := List.sublist_append_right b (q :: c)
        exact List.Nodup.sublist hsl hnd
      · intro x hx
        rcases List.mem_cons.1 hx with h1 | h1
        · rw [h1]
          exact List.mem_cons_self _ _
        · exact List.mem_cons_of_mem _
            (hsub x (List.mem_append_right b (List.mem_cons_of_mem q h1)))
      · show (chainStepOk start cur q && chainOkFrom start (some q.to') c) = true
        rw [Bool.and_eq_true]
        exact ⟨hok1.1, hokqc'.2⟩
      · show stateAfter (some q.to') c = stateAfter (some q.to') rest
        rw [← hstate, stateAfter_append]
        rfl
      · have ha := chainSize_sublist (List.sublist_append_right b (q :: c))
        have hb : chainSize (q :: c) ≤ chainSize rest := le_trans ha hsize
        show chainSize (q :: c) ≤ chainSize (q :: rest)
        simp only [chainSize, List.map_cons, List.sum_cons] at hb ⊢
        simp only [chainSize] at hsize
        omega
    · refine ⟨q :: rest', List.nodup_cons.2 ⟨hq, hnd⟩, ?_, ?_, ?_, ?_⟩
      · intro x hx
        rcases List.mem_cons.1 hx with h1 | h1
        · rw [h1]
          exact List.mem_cons_self _ _
        · exact List.mem_cons_of_mem _ (hsub x h1)
      · show (chainStepOk start cur q && chainOkFrom start (some q.to') rest') = true
        rw [Bool.and_eq_true]
        exact ⟨hok1.1, hok'⟩
      · show stateAfter (some q.to') rest' = stateAfter (some q.to') rest
        exact hstate
      · show chainSize (q :: rest') ≤ chainSize (q :: rest)
        simp only [chainSize, List.map_cons, List.sum_cons]
        simp only [chainSize] at hsize
        omega

theorem chainSize_le_total {packages qs : List Package}
    (hnd : qs.Nodup) (hsub : ∀ q ∈ qs, q ∈ packages) :
    chainSize qs ≤ chainSize packages := by
  have hsp : List.Subperm qs packages := List.Nodup.subperm hnd (fun x hx => hsub x hx)
  rcases hsp with ⟨l, hperm, hsl⟩
  have h1 : chainSize l = chainSize qs := by
    unfold chainSize
    exact List.Perm.sum_eq (hperm.map Package.size)
  have h2 : chainSize l ≤ chainSize packages := chainSize_sublist hsl
  omega

end Speedupdate

namespace Speedupdate

theorem chainOkFrom_none_to_start {start : Option String} :
    ∀ {l : List Package}, chainOkFrom start none l = true →
      chainOkFrom start start l = true := by
  intro l
  cases l with
  | nil => intro _; rfl
  | cons k l' =>
    intro h
    have h1 : chainStepOk start none k = true ∧
        chainOkFrom start (some k.to') l' = true := by
      simpa [chainOkFrom] using h
    have hfn : k.from? = none := by
      have h2 := h1.1
      unfold chainStepOk at h2
      simp only [Bool.or_eq_true, Bool.and_eq_true, decide_eq_true_eq] at h2
      rcases h2 with h3 | h3
      · exact h3
      · exact h3.1
    show (chainStepOk start start k && chainOkFrom start (some k.to') l') = true
    rw [Bool.and_eq_true]
    refine ⟨?_, h1.2⟩
    unfold chainStepOk
    simp [hfn]

theorem stateAfter_ne_nil {l : List Package} (h : l ≠ []) (a b : Option String) :
    stateAfter a l = stateAfter b l := by
  cases l with
  | nil => exact absurd rfl h
  | cons x xs => rfl

theorem getLastD_ne_nil {l : List Nat} (h : l ≠ []) (a b : Nat) :
    l.getLastD a = l.getLastD b := by
  cases l with
  | nil => exact absurd rfl h
  | cons x xs => rw [List.getLastD_cons, List.getLastD_cons]

end Speedupdate

namespace Speedupdate

/-- C1 (amended): with pairwise-distinct `(from, to)` package pairs, a
start revision different from the goal revision, and a total package size
below `u64::MAX`, `metadata::shortest_path` never panics, returns
`noPath` exactly when no chain leads from the start to the goal, and any
returned chain is a valid chain (possibly switching to no version over
the zero-cost edge) of minimal total size. -/
theorem c1_planner_minimal_chain (start : Option String) (goal : String)
    (packages : List Package)
    (hsg : start ≠ some goal)
    (hdistinct : packages.Pairwise fun a b => (a.from?, a.to') ≠ (b.from?, b.to'))
    (hsize : chainSize packages < u64Max) :
    ∃ r, shortest_path start goal packages = some r ∧
      r ≠ PlannerResult.panicked ∧
      (∀ ps, r = PlannerResult.path ps → isChain start goal packages ps ∧
        ∀ qs, isChain start goal packages qs → chainSize ps ≤ chainSize qs) ∧
      (r = PlannerResult.noPath ↔ ¬ ∃ qs, isChain start goal packages qs) := by
  have inv := buildGraph_inv start goal packages
  set N := (buildGraph start goal packages).1 with hN
  set nm := (buildGraph start goal packages).2.1 with hnm
  set eIdx := (buildGraph start goal packages).2.2.1 with heI
  set sIdx := (buildGraph start goal packages).2.2.2.1 with hsI
  set gIdx := (buildGraph start goal packages).2.2.2.2 with hgI
  have hwf : AdjWF N := graphInv_wf inv
  have hslt : sIdx < N.length := graphInv_sIdx_lt inv
  have hgs : gIdx ≠ sIdx := graphInv_gs inv hsg
  have hge : gIdx ≠ eIdx := graphInv_ge inv
  have hgE : nm.getD eIdx none = none := (lookupIdx_getD inv.lookE).1
  have hgS : nm.getD sIdx none = start := (lookupIdx_getD inv.lookS).1
  have hgG : nm.getD gIdx none = some goal := (lookupIdx_getD inv.lookG).1
  rcases dijkstra_spec hwf hgs hslt with ⟨r0, hrun, hnp, hfound, hunreach⟩
  have hsp : shortest_path start goal packages =
      (match dijkstra N sIdx gIdx with
      | none => none
      | some DijkstraOutcome.panicked => some PlannerResult.panicked
      | some DijkstraOutcome.unreachable => some PlannerResult.noPath
      | some (DijkstraOutcome.found path) =>
        if (if eIdx ≠ sIdx ∧ path.head? = some eIdx then path.tail
            else path).length > 0 then
          some (PlannerResult.path (collectChain nm packages
            (if eIdx ≠ sIdx ∧ path.head? = some eIdx then none else start)
            (if eIdx ≠ sIdx ∧ path.head? = some eIdx then path.tail else path)))
        else some PlannerResult.panicked) := rfl
  rw [hsp, hrun]
  cases r0 with
  | panicked => exact absurd rfl hnp
  | unreachable =>
    refine ⟨PlannerResult.noPath, rfl, ?_, ?_, ?_⟩
    · intro h
      cases h
    · intro ps h
      cases h
    · constructor
      · intro _ hex
        rcases hex with ⟨qs, hqne, hqmem, hqok, hqstate⟩
        have hun := hunreach rfl
        rcases chain_reduce qs start hqok with ⟨qs', hnd', hsub', hok', hstate', hsize'⟩
        have hmem' : ∀ q ∈ qs', q ∈ packages := fun q hq => hqmem q (hsub' q hq)
        have hsz : chainSize qs' ≤ chainSize packages := chainSize_le_total hnd' hmem'
        rcases chain_walk inv qs' start sIdx inv.lookS hmem' hok' with ⟨w, hlw, hwalk⟩
        have hweq : w = gIdx := by
          rw [hstate', hqstate] at hlw
          exact Option.some_inj.1 (hlw.symm.trans inv.lookG)
        subst hweq
        have hcon := hun (chainSize qs') hwalk
        omega
      · intro _
        rfl
  | found path =>
    have hfs := hfound path rfl
    unfold FoundSpec at hfs
    rcases hfs with ⟨hne, hlastg, hsnot, hndp, hblt, d, hpcost, hdlt, hmin⟩
    obtain ⟨v, rest, hpath⟩ : ∃ v rest, path = v :: rest := by
      cases path with
      | nil => exact absurd rfl hne
      | cons a b => exact ⟨a, b, rfl⟩
    subst hpath
    have hpc0 := hpcost
    cases hpcost with
    | cons hedge hsub =>
      rename_i ec c
      rcases inv.inversion sIdx _ hedge with ⟨_, he2, hes⟩ | ⟨pk, hpk, hlu, hlv, hc⟩
      · -- first edge is the zero-cost switch edge
        have hv : v = eIdx := congrArg Edge.node he2
        have hec : ec = 0 := congrArg Edge.cost he2
        have hstrip : eIdx ≠ sIdx ∧ (v :: rest).head? = some eIdx :=
          ⟨hes, by rw [hv]; simp⟩
        have hrne : rest ≠ [] := by
          intro h
          subst h
          have h1 : v = gIdx := hlastg
          rw [hv] at h1
          exact hge h1.symm
        rw [List.getLastD_cons] at hlastg
        have hEnotrest : eIdx ∉ rest := by
          have hvn : v ∉ rest := (List.nodup_cons.1 hndp).1
          rw [hv] at hvn
          exact hvn
        have hSnotrest : sIdx ∉ rest := fun h => hsnot (List.mem_cons_of_mem _ h)
        have hsub' : PathCost N eIdx rest c := by
          rw [← hv]
          exact hsub
        rcases collect_spec inv hdistinct rest eIdx c hsub'
            (fun x hx hxe => hEnotrest (hxe ▸ hx))
            (fun x hx hxs => hSnotrest (hxs ▸ hx)) with
          ⟨hok, hstate, hsizec, hmemc, hnec⟩
        rw [hgE] at hok hstate hsizec hmemc hnec
        have hcsne : collectChain nm packages none rest ≠ [] := hnec hrne
        have hokS : chainOkFrom start start (collectChain nm packages none rest) = true :=
          chainOkFrom_none_to_start hok
        have hstateS : stateAfter start (collectChain nm packages none rest) =
            some goal := by
          rw [stateAfter_ne_nil hcsne start none, hstate]
          have h1 : rest.getLastD eIdx = gIdx := by
            rw [getLastD_ne_nil hrne eIdx v]
            exact hlastg
          rw [h1, hgG]
        have hischain : isChain start goal packages (collectChain nm packages none rest) :=
          ⟨hcsne, hmemc, hokS, hstateS⟩
        refine ⟨PlannerResult.path (collectChain nm packages none rest), ?_, ?_, ?_, ?_⟩
        · show (if (if eIdx ≠ sIdx ∧ (v :: rest).head? = some eIdx then (v :: rest).tail
              else (v :: rest)).length > 0 then
            some (PlannerResult.path (collectChain nm packages
              (if eIdx ≠ sIdx ∧ (v :: rest).head? = some eIdx then none else start)
              (if eIdx ≠ sIdx ∧ (v :: rest).head? = some eIdx then (v :: rest).tail
                else (v :: rest))))
          else some PlannerResult.panicked) =
            some (PlannerResult.path (collectChain nm packages none rest))
          rw [if_pos hstrip, if_pos hstrip]
          simp only [List.tail_cons]
          rw [if_pos (List.length_pos.2 hrne)]
        · intro h
          cases h
        · intro ps hps
          injection hps with hps'
          subst hps'
          refine ⟨hischain, ?_⟩
          intro qs hqs
          rcases hqs with ⟨hqne, hqmem, hqok, hqstate⟩
          rcases chain_walk inv qs start sIdx inv.lookS hqmem hqok with ⟨w, hlw, hwalk⟩
          have hweq : w = gIdx := by
            rw [hqstate] at hlw
            exact Option.some_inj.1 (hlw.symm.trans inv.lookG)
          subst hweq
          have h5 := hmin (chainSize qs) hwalk
          omega
        · constructor
          · intro h
            cases h
          · intro hnex
            exact absurd ⟨_, hischain⟩ hnex
      · -- first edge is a package edge
        have hvne : v ≠ eIdx := by
          intro h
          have h3 := (lookupIdx_getD hlv).1
          rw [h, hgE] at h3
          cases h3
        have hstrip : ¬ (eIdx ≠ sIdx ∧ (v :: rest).head? = some eIdx) := by
          intro hcontra
          exact hvne (Option.some_inj.1 hcontra.2)
        have hEnot : eIdx ∉ v :: rest :=
          path_avoids_empty inv (v :: rest) sIdx (ec + c) hpc0
            (fun _ hh => hvne (Option.some_inj.1 hh))
            (fun x hx hxs => hsnot (hxs ▸ hx))
        rcases collect_spec inv hdistinct (v :: rest) sIdx (ec + c) hpc0
            (fun x hx hxe => hEnot (hxe ▸ hx))
            (fun x hx hxs => hsnot (hxs ▸ hx)) with
          ⟨hok, hstate, hsizec, hmemc, hnec⟩
        rw [hgS] at hok hstate hsizec hmemc hnec
        have hcsne : collectChain nm packages start (v :: rest) ≠ [] :=
          hnec (List.cons_ne_nil _ _)
        have hstateS : stateAfter start (collectChain nm packages start (v :: rest)) =
            some goal := by
          rw [hstate, hlastg, hgG]
        have hischain : isChain start goal packages
            (collectChain nm packages start (v :: rest)) :=
          ⟨hcsne, hmemc, hok, hstateS⟩
        refine ⟨PlannerResult.path (collectChain nm packages start (v :: rest)),
          ?_, ?_, ?_, ?_⟩
        · show (if (if eIdx ≠ sIdx ∧ (v :: rest).head? = some eIdx then (v :: rest).tail
              else (v :: rest)).length > 0 then
            some (PlannerResult.path (collectChain nm packages
              (if eIdx ≠ sIdx ∧ (v :: rest).head? = some eIdx then none else start)
              (if eIdx ≠ sIdx ∧ (v :: rest).head? = some eIdx then (v :: rest).tail
                else (v :: rest))))
          else some PlannerResult.panicked) =
            some (PlannerResult.path (collectChain nm packages start (v :: rest)))
          rw [if_neg hstrip, if_neg hstrip]
          rw [if_pos (by simp)]
        · intro h
          cases h
        · intro ps hps
          injection hps with hps'
          subst hps'
          refine ⟨hischain, ?_⟩
          intro qs hqs
          rcases hqs with ⟨hqne, hqmem, hqok, hqstate⟩
          rcases chain_walk inv qs start sIdx inv.lookS hqmem hqok with ⟨w, hlw, hwalk⟩
          have hweq : w = gIdx := by
            rw [hqstate] at hlw
            exact Option.some_inj.1 (hlw.symm.trans inv.lookG)
          subst hweq
          have h5 := hmin (chainSize qs) hwalk
          omega
        · constructor
          · intro h
            cases h
          · intro hnex
            exact absurd ⟨_, hischain⟩ hnex

end Speedupdate

namespace Speedupdate

/-- C1 counterexample: with two packages sharing the `(from, to)` pair
`(None, "b")`, the planner returns the chain `[size 100]` although the
chain `[size 5]` also leads from no version to `"b"` with a strictly
smaller total size (the recovery loop takes the first name-matching
package, not the one whose edge dijkstra chose); and with
`start = Some(goal)` the planner hits the `assert!(path.len() > 0)` and
panics instead of returning a chain or `None`. -/
theorem c1_planner_counterexample :
    shortest_path none "b" [(⟨none, "b", 100⟩ : Package), ⟨none, "b", 5⟩] =
      some (PlannerResult.path [⟨none, "b", 100⟩]) ∧
    isChain none "b" [(⟨none, "b", 100⟩ : Package), ⟨none, "b", 5⟩]
      [⟨none, "b", 5⟩] ∧
    chainSize [(⟨none, "b", 5⟩ : Package)] <
      chainSize [(⟨none, "b", 100⟩ : Package)] ∧
    shortest_path (some "x") "x" [(⟨none, "x", 5⟩ : Package)] =
      some PlannerResult.panicked := by
  refine ⟨rfl, ⟨by decide, by decide, by decide, by decide⟩, by decide, rfl⟩

/-- Witness: the amended C1 theorem applies to a concrete planner run
(no version to `"b"` over a single package of size 5). -/
theorem c1_planner_minimal_chain_witness :
    ((none : Option String) ≠ some "b" ∧
      List.Pairwise (fun a b => (a.from?, a.to') ≠ (b.from?, b.to'))
        [(⟨none, "b", 5⟩ : Package)] ∧
      chainSize [(⟨none, "b", 5⟩ : Package)] < u64Max) ∧
    ∃ r, shortest_path none "b" [(⟨none, "b", 5⟩ : Package)] = some r ∧
      r ≠ PlannerResult.panicked ∧
      (∀ ps, r = PlannerResult.path ps →
        isChain none "b" [(⟨none, "b", 5⟩ : Package)] ps ∧
        ∀ qs, isChain none "b" [(⟨none, "b", 5⟩ : Package)] qs →
          chainSize ps ≤ chainSize qs) ∧
      (r = PlannerResult.noPath ↔
        ¬ ∃ qs, isChain none "b" [(⟨none, "b", 5⟩ : Package)] qs) :=
  ⟨⟨by decide, by decide, by decide⟩,
    c1_planner_minimal_chain none "b" [⟨none, "b", 5⟩]
      (by decide) (by decide) (by decide)⟩

end Speedupdate
